import Mathlib

/-!
# espconn_buf.c : the ring buffer of the espconn layer

A shallow embedding of `lwip/app/espconn_buf.c`.

* Memory is a list of bytes (`List Nat`); a pointer into the storage of a ring
  buffer is its offset from `rb->buf`, so `bufend` is the offset `rb->size` and a
  pointer difference is a difference of offsets.
* `size_t` is the 32-bit unsigned type of the target: the additions and
  subtractions the source performs on `size_t` values are taken modulo `WORD`
  (`wadd`, `wsub`), except `count - nread`, `bytes_used - offset` and the sums bounded
  by them, which the guards around them keep from wrapping in every state.
* `lwIP_ASSERT` prints and returns early; the early return is the result `asserted`.
  A failed assertion inside `ringbuf_nextp` leaves its caller with an indeterminate
  pointer; the model reports it as `asserted` for the caller too.
* `os_zalloc`, `os_memcpy`, `os_memset` and `memchr` belong to the SDK and the C
  library. An allocation is a flag saying whether it succeeds; a read or write past the
  end of a list, undefined in C, reads or writes what the list has.
* The three `while` loops and the recursion of `ringbuf_findchr` take a fuel argument
  that the callers set to the number of bytes to process; every iteration that does
  not stop at an assertion processes at least one byte, and `no_timeout` shows that the
  result `timeout` is never produced.
* To count the contiguous segment operations, each loop and the recursion are repeated
  with the list of their `os_memset`, `os_memcpy` or `memchr` calls next to the result
  (`..._segments`); dropping the list gives the loop itself.
-/

namespace EspconnBuf

/-! ## Machine arithmetic -/

/-- The modulus of `size_t` arithmetic (32-bit target). -/
def WORD : Nat := 4294967296

/-- Unsigned addition of `size_t`. -/
def wadd (a b : Nat) : Nat := (a + b) % WORD

/-- Unsigned subtraction of `size_t`. -/
def wsub (a b : Nat) : Nat := (a + (WORD - b % WORD)) % WORD

/-- The macro `LWIP_MIN(x, y)`, which is `((x) < (y)) ? (x) : (y)`. -/
def LWIP_MIN (x y : Nat) : Nat := if x < y then x else y

/-- Conversion of an `int` argument to `unsigned char`, as `memset` and `memchr` do. -/
def toByte (c : Int) : Nat := (c % 256).toNat

/-! ## Memory primitives -/

/-- Reading `n` bytes of `mem` from offset `pos`. -/
def memRead (mem : List Nat) (pos n : Nat) : List Nat := (mem.drop pos).take n

/-- The call `os_memcpy(mem + pos, bytes, len bytes)`: the bytes replace those at `pos`. -/
def os_memcpy (mem : List Nat) (pos : Nat) (bytes : List Nat) : List Nat :=
  mem.take pos ++ bytes ++ mem.drop (pos + bytes.length)

/-- The call `os_memset(mem + pos, c, n)`: `n` copies of the byte `c` at `pos`. -/
def os_memset (mem : List Nat) (pos : Nat) (c : Int) (n : Nat) : List Nat :=
  os_memcpy mem pos (List.replicate n (toByte c))

/-- The call `memchr(mem + pos, c, n)`: offset from `pos` of the first byte equal to
`(unsigned char) c` among the `n` bytes at `pos`, or `none` (NULL). -/
def memchr (mem : List Nat) (pos : Nat) (c : Int) (n : Nat) : Option Nat :=
  let seg := memRead mem pos n
  if seg.indexOf (toByte c) < seg.length then some (seg.indexOf (toByte c)) else none

/-! ## The buffer record -/

/-- The record `struct ringbuf_t`: `buf` is the storage, `head` (write cursor) and
`tail` (read cursor) are offsets from the start of the storage. -/
structure ringbuf_t where
  buf : List Nat
  head : Nat
  tail : Nat
  size : Nat
deriving DecidableEq, Repr

/-- How a call ends. -/
inductive Ret (α : Type) where
  | value (v : α)
  | asserted
  | timeout
deriving DecidableEq, Repr

/-- How a loop ends: the loop condition became false, an assertion in the body
failed, or the fuel of the model ran out. -/
inductive LoopExit (σ : Type) where
  | finished (s : σ)
  | asserted (s : σ)
  | timeout
deriving DecidableEq, Repr

def ringbuf_buffer_size (rb : ringbuf_t) : Nat := rb.size

def ringbuf_reset (rb : ringbuf_t) : ringbuf_t := { rb with head := 0, tail := 0 }

/-- The function `ringbuf_new`; the two flags say whether the allocation of the
record and of the storage succeed. -/
def ringbuf_new (capacity : Nat) (recordOk storageOk : Bool) : Option ringbuf_t :=
  if recordOk then
    let size := wadd capacity 1
    if storageOk then
      some (ringbuf_reset { buf := List.replicate size 0, head := 0, tail := 0, size := size })
    else none
  else none

def ringbuf_capacity (rb : ringbuf_t) : Nat := wsub (ringbuf_buffer_size rb) 1

/-- Offset of `rb->buf + size`. -/
def ringbuf_end (rb : ringbuf_t) : Nat := ringbuf_buffer_size rb

def ringbuf_bytes_free (rb : ringbuf_t) : Nat :=
  if rb.head ≥ rb.tail then wsub (ringbuf_capacity rb) (rb.head - rb.tail)
  else rb.tail - rb.head - 1

def ringbuf_bytes_used (rb : ringbuf_t) : Nat :=
  wsub (ringbuf_capacity rb) (ringbuf_bytes_free rb)

def ringbuf_is_full (rb : ringbuf_t) : Bool := ringbuf_bytes_free rb == 0

def ringbuf_is_empty (rb : ringbuf_t) : Bool := ringbuf_bytes_free rb == ringbuf_capacity rb

def ringbuf_tail (rb : ringbuf_t) : Nat := rb.tail

def ringbuf_head (rb : ringbuf_t) : Nat := rb.head

/-- The function `ringbuf_nextp` on the offset `p`; `none` when its assertion fails
(`p >= rb->buf` always holds for an offset). -/
def ringbuf_nextp (rb : ringbuf_t) (p : Nat) : Option Nat :=
  if p < ringbuf_end rb then some ((p + 1) % ringbuf_buffer_size rb) else none

/-- The body of `ringbuf_findchr`, with the fuel of the recursive call. -/
def ringbuf_findchr_rec (rb : ringbuf_t) (c : Int) : Nat → Nat → Ret Nat
  | fuel, offset =>
    let bufend := ringbuf_end rb
    let bytes_used := ringbuf_bytes_used rb
    if offset ≥ bytes_used then .value bytes_used
    else
      let start := (wadd rb.tail offset) % ringbuf_buffer_size rb
      if ¬ (bufend > start) then .asserted
      else
        let n := LWIP_MIN (bufend - start) (bytes_used - offset)
        match memchr rb.buf start c n with
        | some found => .value (offset + found)
        | none =>
          match fuel with
          | 0 => .timeout
          | fuel + 1 => ringbuf_findchr_rec rb c fuel (offset + n)

/-- The function `ringbuf_findchr`. -/
def ringbuf_findchr (rb : ringbuf_t) (c : Int) (offset : Nat) : Ret Nat :=
  ringbuf_findchr_rec rb c (ringbuf_bytes_used rb) offset

/-- The `while` loop of `ringbuf_memset`; the state is `(dst, nwritten)`. -/
def ringbuf_memset_loop (c : Int) (count bufend : Nat) :
    Nat → ringbuf_t → Nat → LoopExit (ringbuf_t × Nat)
  | 0, dst, nwritten => if nwritten = count then .finished (dst, nwritten) else .timeout
  | fuel + 1, dst, nwritten =>
    if nwritten = count then .finished (dst, nwritten)
    else if ¬ (bufend > dst.head) then .asserted (dst, nwritten)
    else
      let n := LWIP_MIN (bufend - dst.head) (count - nwritten)
      let dst1 : ringbuf_t := { dst with buf := os_memset dst.buf dst.head c n, head := dst.head + n }
      let dst2 : ringbuf_t := if dst1.head = bufend then { dst1 with head := 0 } else dst1
      ringbuf_memset_loop c count bufend fuel dst2 (nwritten + n)

/-- The function `ringbuf_memset`: the buffer it leaves and `nwritten`. -/
def ringbuf_memset (dst : ringbuf_t) (c : Int) (len : Nat) : ringbuf_t × Ret Nat :=
  let bufend := ringbuf_end dst
  let count := LWIP_MIN len (ringbuf_buffer_size dst)
  let overflow := decide (count > ringbuf_bytes_free dst)
  match ringbuf_memset_loop c count bufend count dst 0 with
  | .timeout => (dst, .timeout)
  | .asserted (d, _) => (d, .asserted)
  | .finished (d, nwritten) =>
    if overflow then
      match ringbuf_nextp d d.head with
      | none => (d, .asserted)
      | some p =>
        let d1 : ringbuf_t := { d with tail := p }
        if ringbuf_is_full d1 then (d1, .value nwritten) else (d1, .asserted)
    else (d, .value nwritten)

/-- The `while` loop of `ringbuf_memcpy_into`; the state is `(dst, nread)`. -/
def ringbuf_memcpy_into_loop (src : List Nat) (count bufend : Nat) :
    Nat → ringbuf_t → Nat → LoopExit (ringbuf_t × Nat)
  | 0, dst, nread => if nread = count then .finished (dst, nread) else .timeout
  | fuel + 1, dst, nread =>
    if nread = count then .finished (dst, nread)
    else if ¬ (bufend > dst.head) then .asserted (dst, nread)
    else
      let n := LWIP_MIN (bufend - dst.head) (count - nread)
      let dst1 : ringbuf_t :=
        { dst with buf := os_memcpy dst.buf dst.head (memRead src nread n), head := dst.head + n }
      let dst2 : ringbuf_t := if dst1.head = bufend then { dst1 with head := 0 } else dst1
      ringbuf_memcpy_into_loop src count bufend fuel dst2 (nread + n)

/-- The function `ringbuf_memcpy_into`, reading `count` bytes of `src`: the buffer it
leaves and the value returned, the new `dst->head`. -/
def ringbuf_memcpy_into (dst : ringbuf_t) (src : List Nat) (count : Nat) : ringbuf_t × Ret Nat :=
  let bufend := ringbuf_end dst
  let overflow := decide (count > ringbuf_bytes_free dst)
  match ringbuf_memcpy_into_loop src count bufend count dst 0 with
  | .timeout => (dst, .timeout)
  | .asserted (d, _) => (d, .asserted)
  | .finished (d, _) =>
    if overflow then
      match ringbuf_nextp d d.head with
      | none => (d, .asserted)
      | some p =>
        let d1 : ringbuf_t := { d with tail := p }
        if ringbuf_is_full d1 then (d1, .value d1.head) else (d1, .asserted)
    else (d, .value d.head)

/-- The `while` loop of `ringbuf_memcpy_from`; the state is `(dst, src, nwritten)`. -/
def ringbuf_memcpy_from_loop (count bufend : Nat) :
    Nat → List Nat → ringbuf_t → Nat → LoopExit (List Nat × ringbuf_t × Nat)
  | 0, dst, src, nwritten =>
    if nwritten = count then .finished (dst, src, nwritten) else .timeout
  | fuel + 1, dst, src, nwritten =>
    if nwritten = count then .finished (dst, src, nwritten)
    else if ¬ (bufend > src.tail) then .asserted (dst, src, nwritten)
    else
      let n := LWIP_MIN (bufend - src.tail) (count - nwritten)
      let dst1 := os_memcpy dst nwritten (memRead src.buf src.tail n)
      let src1 : ringbuf_t := { src with tail := src.tail + n }
      let src2 : ringbuf_t := if src1.tail = bufend then { src1 with tail := 0 } else src1
      ringbuf_memcpy_from_loop count bufend fuel dst1 src2 (nwritten + n)

/-- The function `ringbuf_memcpy_from`: the destination memory, the buffer and the
value returned, `none` for NULL and `some t` for the new `src->tail`. -/
def ringbuf_memcpy_from (dst : List Nat) (src : ringbuf_t) (count : Nat) :
    List Nat × ringbuf_t × Ret (Option Nat) :=
  let bytes_used := ringbuf_bytes_used src
  if count > bytes_used then (dst, src, .value none)
  else
    let bufend := ringbuf_end src
    match ringbuf_memcpy_from_loop count bufend count dst src 0 with
    | .timeout => (dst, src, .timeout)
    | .asserted (d, s, _) => (d, s, .asserted)
    | .finished (d, s, _) =>
      if wadd count (ringbuf_bytes_used s) = bytes_used then (d, s, .value (some s.tail))
      else (d, s, .asserted)

/-! ## Vocabulary of the specification -/

/-- A well-formed buffer: the storage has `size` bytes, `size` is a `size_t` value
and both cursors point inside the storage. -/
def WF (rb : ringbuf_t) : Prop :=
  rb.buf.length = rb.size ∧ rb.size < WORD ∧ rb.head < rb.size ∧ rb.tail < rb.size

instance (rb : ringbuf_t) : Decidable (WF rb) := by
  unfold WF; infer_instance

/-- The buffered bytes: the storage read from the read cursor up to the write
cursor, around the end of the storage when the write cursor is behind. -/
def buffered (rb : ringbuf_t) : List Nat :=
  if rb.tail ≤ rb.head then (rb.buf.drop rb.tail).take (rb.head - rb.tail)
  else rb.buf.drop rb.tail ++ rb.buf.take rb.head

/-- The last `k` elements of a list. -/
def lastN (k : Nat) (l : List Nat) : List Nat := l.drop (l.length - k)

/-- The cursor-range invariant: both cursors point inside the storage. -/
def CursorsInRange (rb : ringbuf_t) : Prop := rb.head < rb.size ∧ rb.tail < rb.size

instance (rb : ringbuf_t) : Decidable (CursorsInRange rb) := by
  unfold CursorsInRange; infer_instance

/-! ## The loops with their segment operations

Each loop is repeated here with, next to its result, the list of the contiguous
segment operations it performs: one entry `(offset, n)` for each iteration, in order,
for the `os_memset` or `os_memcpy` call of that iteration. -/

/-- The loop of `ringbuf_memset` with the list of its `os_memset` calls. -/
def ringbuf_memset_loop_segments (c : Int) (count bufend : Nat) :
    Nat → ringbuf_t → Nat → LoopExit (ringbuf_t × Nat) × List (Nat × Nat)
  | 0, dst, nwritten => (if nwritten = count then .finished (dst, nwritten) else .timeout, [])
  | fuel + 1, dst, nwritten =>
    if nwritten = count then (.finished (dst, nwritten), [])
    else if ¬ (bufend > dst.head) then (.asserted (dst, nwritten), [])
    else
      let n := LWIP_MIN (bufend - dst.head) (count - nwritten)
      let dst1 : ringbuf_t := { dst with buf := os_memset dst.buf dst.head c n, head := dst.head + n }
      let dst2 : ringbuf_t := if dst1.head = bufend then { dst1 with head := 0 } else dst1
      let rest := ringbuf_memset_loop_segments c count bufend fuel dst2 (nwritten + n)
      (rest.1, (dst.head, n) :: rest.2)

/-- The loop of `ringbuf_memcpy_into` with the list of its `os_memcpy` calls. -/
def ringbuf_memcpy_into_loop_segments (src : List Nat) (count bufend : Nat) :
    Nat → ringbuf_t → Nat → LoopExit (ringbuf_t × Nat) × List (Nat × Nat)
  | 0, dst, nread => (if nread = count then .finished (dst, nread) else .timeout, [])
  | fuel + 1, dst, nread =>
    if nread = count then (.finished (dst, nread), [])
    else if ¬ (bufend > dst.head) then (.asserted (dst, nread), [])
    else
      let n := LWIP_MIN (bufend - dst.head) (count - nread)
      let dst1 : ringbuf_t :=
        { dst with buf := os_memcpy dst.buf dst.head (memRead src nread n), head := dst.head + n }
      let dst2 : ringbuf_t := if dst1.head = bufend then { dst1 with head := 0 } else dst1
      let rest := ringbuf_memcpy_into_loop_segments src count bufend fuel dst2 (nread + n)
      (rest.1, (dst.head, n) :: rest.2)

/-- The loop of `ringbuf_memcpy_from` with the list of its `os_memcpy` calls, each as
the offset read from and the number of bytes. -/
def ringbuf_memcpy_from_loop_segments (count bufend : Nat) :
    Nat → List Nat → ringbuf_t → Nat →
      LoopExit (List Nat × ringbuf_t × Nat) × List (Nat × Nat)
  | 0, dst, src, nwritten =>
    (if nwritten = count then .finished (dst, src, nwritten) else .timeout, [])
  | fuel + 1, dst, src, nwritten =>
    if nwritten = count then (.finished (dst, src, nwritten), [])
    else if ¬ (bufend > src.tail) then (.asserted (dst, src, nwritten), [])
    else
      let n := LWIP_MIN (bufend - src.tail) (count - nwritten)
      let dst1 := os_memcpy dst nwritten (memRead src.buf src.tail n)
      let src1 : ringbuf_t := { src with tail := src.tail + n }
      let src2 : ringbuf_t := if src1.tail = bufend then { src1 with tail := 0 } else src1
      let rest := ringbuf_memcpy_from_loop_segments count bufend fuel dst1 src2 (nwritten + n)
      (rest.1, (src.tail, n) :: rest.2)

/-- The segment operations of a call of `ringbuf_memset`. -/
def ringbuf_memset_segments (dst : ringbuf_t) (c : Int) (len : Nat) : List (Nat × Nat) :=
  (ringbuf_memset_loop_segments c (LWIP_MIN len (ringbuf_buffer_size dst)) (ringbuf_end dst)
    (LWIP_MIN len (ringbuf_buffer_size dst)) dst 0).2

/-- The segment operations of a call of `ringbuf_memcpy_into`. -/
def ringbuf_memcpy_into_segments (dst : ringbuf_t) (src : List Nat) (count : Nat) :
    List (Nat × Nat) :=
  (ringbuf_memcpy_into_loop_segments src count (ringbuf_end dst) count dst 0).2

/-- The segment operations of a call of `ringbuf_memcpy_from`: none when the call is
refused. -/
def ringbuf_memcpy_from_segments (dst : List Nat) (src : ringbuf_t) (count : Nat) :
    List (Nat × Nat) :=
  if count > ringbuf_bytes_used src then []
  else (ringbuf_memcpy_from_loop_segments count (ringbuf_end src) count dst src 0).2

/-- The segments a loop cuts `count - done` bytes into from the cursor `cur`: they
depend on the cursor only. -/
def copy_segments (count bufend : Nat) : Nat → Nat → Nat → List (Nat × Nat)
  | 0, _, _ => []
  | fuel + 1, cur, done =>
    if done = count then []
    else if ¬ (bufend > cur) then []
    else
      (cur, LWIP_MIN (bufend - cur) (count - done)) ::
        copy_segments count bufend fuel
          (if cur + LWIP_MIN (bufend - cur) (count - done) = bufend then 0
           else cur + LWIP_MIN (bufend - cur) (count - done))
          (done + LWIP_MIN (bufend - cur) (count - done))

/-- At most two segments, each of at least one byte and inside a storage of `size`
bytes; when there are two, the first ends at the end of the storage and the second
starts at its start. -/
def AtMostTwoSegments (size : Nat) (segs : List (Nat × Nat)) : Prop :=
  segs.length ≤ 2 ∧
  (∀ s ∈ segs, 1 ≤ s.2 ∧ s.1 + s.2 ≤ size) ∧
  (∀ s1 s2 : Nat × Nat, segs = [s1, s2] → s1.1 + s1.2 = size ∧ s2.1 = 0)

/-- The body of `ringbuf_findchr` with, next to its result, the list of its `memchr`
calls: one entry `(offset, start, n)` for each call, in order. -/
def ringbuf_findchr_rec_segments (rb : ringbuf_t) (c : Int) :
    Nat → Nat → Ret Nat × List (Nat × Nat × Nat)
  | fuel, offset =>
    let bufend := ringbuf_end rb
    let bytes_used := ringbuf_bytes_used rb
    if offset ≥ bytes_used then (.value bytes_used, [])
    else
      let start := (wadd rb.tail offset) % ringbuf_buffer_size rb
      if ¬ (bufend > start) then (.asserted, [])
      else
        let n := LWIP_MIN (bufend - start) (bytes_used - offset)
        match memchr rb.buf start c n with
        | some found => (.value (offset + found), [(offset, start, n)])
        | none =>
          match fuel with
          | 0 => (.timeout, [(offset, start, n)])
          | fuel + 1 =>
            let rest := ringbuf_findchr_rec_segments rb c fuel (offset + n)
            (rest.1, (offset, start, n) :: rest.2)

/-- The segments a call of `ringbuf_findchr` scans. -/
def ringbuf_findchr_segments (rb : ringbuf_t) (c : Int) (offset : Nat) :
    List (Nat × Nat × Nat) :=
  (ringbuf_findchr_rec_segments rb c (ringbuf_bytes_used rb) offset).2

/-! ## Sequences of calls -/

/-- One call of a sequence: `ringbuf_memcpy_into(rb, src, len src)` or
`ringbuf_memcpy_from(dst, rb, count)`. -/
inductive Call where
  | copyIn (src : List Nat)
  | copyOut (dst : List Nat) (count : Nat)
deriving DecidableEq, Repr

/-- The buffer after one call. -/
def applyCall (rb : ringbuf_t) : Call → ringbuf_t
  | .copyIn src => (ringbuf_memcpy_into rb src src.length).1
  | .copyOut dst count => (ringbuf_memcpy_from dst rb count).2.1

/-- The buffer after a sequence of calls. -/
def runCalls (rb : ringbuf_t) : List Call → ringbuf_t
  | [] => rb
  | c :: cs => runCalls (applyCall rb c) cs

/-- Every `copyIn` count is at most the bytes free at that moment and every `copyOut`
count at most the bytes used at that moment. -/
def withinBounds (rb : ringbuf_t) : List Call → Prop
  | [] => True
  | .copyIn src :: cs =>
    src.length ≤ ringbuf_bytes_free rb ∧ withinBounds (applyCall rb (.copyIn src)) cs
  | .copyOut dst count :: cs =>
    count ≤ ringbuf_bytes_used rb ∧ withinBounds (applyCall rb (.copyOut dst count)) cs

/-- Total number of bytes copied in by a sequence. -/
def bytesIn : List Call → Nat
  | [] => 0
  | .copyIn src :: cs => src.length + bytesIn cs
  | .copyOut _ _ :: cs => bytesIn cs

/-- Total number of bytes copied out by a sequence. -/
def bytesOut : List Call → Nat
  | [] => 0
  | .copyIn _ :: cs => bytesOut cs
  | .copyOut _ count :: cs => count + bytesOut cs

/-! ## Sample buffers -/

/-- An empty buffer of capacity 4 whose cursors sit in the middle of the storage. -/
def sampleEmpty : ringbuf_t := { buf := [9, 9, 9, 9, 9], head := 3, tail := 3, size := 5 }

/-- A buffer of capacity 4 holding `[65, 66]`, two bytes before the end of the storage. -/
def samplePartial : ringbuf_t := { buf := [0, 0, 65, 66, 0], head := 4, tail := 2, size := 5 }

/-- A buffer of capacity 4 holding `[65, 66, 67]` across the end of the storage. -/
def sampleWrapped : ringbuf_t := { buf := [66, 67, 0, 0, 65], head := 2, tail := 4, size := 5 }

/-- The buffer `ringbuf_new(4)` creates. -/
def sampleFresh : ringbuf_t := { buf := [0, 0, 0, 0, 0], head := 0, tail := 0, size := 5 }

/-- The record `ringbuf_new(4294967295)` creates when both allocations succeed:
`capacity + 1` wraps to 0. -/
def sampleZero : ringbuf_t := { buf := [], head := 0, tail := 0, size := 0 }

/-- A buffer of 3221225472 bytes holding 3221225471: the storage is zero but for its
first byte, the read cursor is at 2147483647 and the write cursor just behind it. -/
def sampleHuge : ringbuf_t := { buf := 1 :: List.replicate 3221225471 0, head := 2147483646, tail := 2147483647, size := 3221225472 }

/-! ## Arithmetic of the queries -/

theorem capacity_eq (rb : ringbuf_t) (h : WF rb) : ringbuf_capacity rb = rb.size - 1 := by
  obtain ⟨_, h2, h3, _⟩ := h
  simp only [ringbuf_capacity, ringbuf_buffer_size, wsub, WORD] at *
  omega

theorem bytes_free_eq (rb : ringbuf_t) (h : WF rb) :
    ringbuf_bytes_free rb =
      if rb.tail ≤ rb.head then rb.size - 1 - (rb.head - rb.tail) else rb.tail - rb.head - 1 := by
  have hc := capacity_eq rb h
  obtain ⟨_, h2, h3, h4⟩ := h
  simp only [ringbuf_bytes_free, hc, wsub, WORD, ge_iff_le] at *
  split <;> omega

theorem bytes_used_eq (rb : ringbuf_t) (h : WF rb) :
    ringbuf_bytes_used rb =
      if rb.tail ≤ rb.head then rb.head - rb.tail else rb.size - rb.tail + rb.head := by
  have hc := capacity_eq rb h
  have hf := bytes_free_eq rb h
  obtain ⟨_, h2, h3, h4⟩ := h
  simp only [ringbuf_bytes_used, hc, hf, wsub, WORD] at *
  split <;> omega

theorem bytes_used_add_free (rb : ringbuf_t) (h : WF rb) :
    ringbuf_bytes_used rb + ringbuf_bytes_free rb = rb.size - 1 := by
  rw [bytes_used_eq rb h, bytes_free_eq rb h]
  obtain ⟨_, h2, h3, h4⟩ := h
  split <;> omega

theorem bytes_used_lt_size (rb : ringbuf_t) (h : WF rb) : ringbuf_bytes_used rb < rb.size := by
  have := bytes_used_add_free rb h
  obtain ⟨_, h2, h3, h4⟩ := h
  omega

/-! ## Segments of the storage -/

theorem os_memcpy_length (mem : List Nat) (pos : Nat) (bytes : List Nat)
    (h : pos + bytes.length ≤ mem.length) : (os_memcpy mem pos bytes).length = mem.length := by
  simp only [os_memcpy, List.length_append, List.length_take, List.length_drop]
  omega

/-- Writing a segment that ends at or before the end of the storage, seen from the
cursor after the write: the storage read circularly from the new cursor is the old
circular reading with the segment appended and as many bytes dropped at the front. -/
theorem rotate_os_memcpy (buf : List Nat) (head n : Nat) (seg : List Nat)
    (hseg : seg.length = n) (hn : head + n ≤ buf.length) :
    (os_memcpy buf head seg).rotate (if head + n = buf.length then 0 else head + n)
      = (buf.rotate head ++ seg).drop n := by
  have hlen : (os_memcpy buf head seg).length = buf.length :=
    os_memcpy_length buf head seg (by omega)
  have htk : (buf.take head).length = head := by
    rw [List.length_take]; omega
  have hR : (buf.rotate head ++ seg).drop n = buf.drop (head + n) ++ buf.take head ++ seg := by
    rw [List.rotate_eq_drop_append_take (by omega), List.append_assoc,
      List.drop_append_of_le_length (by rw [List.length_drop]; omega), List.drop_drop,
      List.append_assoc]
  rw [hR]
  split
  · next h =>
    rw [List.rotate_zero, os_memcpy, hseg, h, List.drop_of_length_le (le_refl _)]
    simp
  · next h =>
    rw [List.rotate_eq_drop_append_take (by omega), os_memcpy, hseg]
    have h1 : (buf.take head ++ seg).length = head + n := by
      rw [List.length_append, htk, hseg]
    rw [List.drop_left' h1, List.take_left' h1, List.append_assoc]

theorem lastN_length (k : Nat) (l : List Nat) (h : k ≤ l.length) : (lastN k l).length = k := by
  simp only [lastN, List.length_drop]
  omega

/-- The buffered bytes are the last `bytes_used` bytes of the storage read circularly
from the write cursor. -/
theorem buffered_eq_lastN (rb : ringbuf_t) (h : WF rb) :
    buffered rb = lastN (ringbuf_bytes_used rb) (rb.buf.rotate rb.head) := by
  have hu := bytes_used_eq rb h
  obtain ⟨h1, h2, h3, h4⟩ := h
  rw [hu]
  simp only [buffered, lastN, List.length_rotate]
  rw [List.rotate_eq_drop_append_take (by omega)]
  split
  · next hle =>
    have e1 : List.drop (rb.buf.length - (rb.head - rb.tail)) (List.drop rb.head rb.buf) = [] :=
      List.drop_of_length_le (by rw [List.length_drop]; omega)
    rw [List.drop_append_eq_append_drop, List.length_drop, e1, List.nil_append,
      List.drop_take]
    have e2 : rb.buf.length - (rb.head - rb.tail) - (rb.buf.length - rb.head) = rb.tail := by
      omega
    rw [e2]
  · next hlt =>
    rw [List.drop_append_of_le_length (by rw [List.length_drop]; omega), List.drop_drop]
    congr 2
    omega

theorem buffered_length (rb : ringbuf_t) (h : WF rb) :
    (buffered rb).length = ringbuf_bytes_used rb := by
  rw [buffered_eq_lastN rb h]
  apply lastN_length
  have := bytes_used_lt_size rb h
  rw [List.length_rotate]
  have := h.1
  omega

/-! ## The write loop -/

theorem LWIP_MIN_le_left (x y : Nat) : LWIP_MIN x y ≤ x := by
  unfold LWIP_MIN; split <;> omega

theorem LWIP_MIN_le_right (x y : Nat) : LWIP_MIN x y ≤ y := by
  unfold LWIP_MIN; split <;> omega

theorem LWIP_MIN_pos (x y : Nat) (hx : 0 < x) (hy : 0 < y) : 0 < LWIP_MIN x y := by
  unfold LWIP_MIN; split <;> omega

theorem memRead_length (mem : List Nat) (pos n : Nat) (h : pos + n ≤ mem.length) :
    (memRead mem pos n).length = n := by
  simp only [memRead, List.length_take, List.length_drop]
  omega

theorem memRead_add (mem : List Nat) (pos a b : Nat) :
    memRead mem pos (a + b) = memRead mem pos a ++ memRead mem (pos + a) b := by
  simp only [memRead, List.take_add, List.drop_drop]

theorem memcpy_into_loop_done (src : List Nat) (count bufend fuel : Nat) (dst : ringbuf_t) :
    ringbuf_memcpy_into_loop src count bufend fuel dst count = .finished (dst, count) := by
  cases fuel <;> simp [ringbuf_memcpy_into_loop]

theorem memcpy_into_loop_step (src : List Nat) (count bufend fuel : Nat) (dst : ringbuf_t)
    (nread : Nat) (hne : nread ≠ count) (hlt : dst.head < bufend) :
    ringbuf_memcpy_into_loop src count bufend (fuel + 1) dst nread =
      ringbuf_memcpy_into_loop src count bufend fuel
        { buf := os_memcpy dst.buf dst.head
            (memRead src nread (LWIP_MIN (bufend - dst.head) (count - nread))),
          head := if dst.head + LWIP_MIN (bufend - dst.head) (count - nread) = bufend then 0
                  else dst.head + LWIP_MIN (bufend - dst.head) (count - nread),
          tail := dst.tail, size := dst.size }
        (nread + LWIP_MIN (bufend - dst.head) (count - nread)) := by
  rw [ringbuf_memcpy_into_loop]
  simp only [if_neg hne, gt_iff_lt, hlt, not_true_eq_false, if_false]
  split <;> rfl

/-- The write loop from a state with the cursor inside the storage: it ends with all
`count` bytes consumed, the cursor advanced circularly, and the storage read
circularly from the new cursor being the old reading followed by the bytes written,
with as many bytes dropped at the front. -/
theorem memcpy_into_loop_spec (src : List Nat) (count : Nat) (hsrc : count ≤ src.length) :
    ∀ (fuel : Nat) (dst : ringbuf_t) (nread : Nat),
      dst.buf.length = dst.size → dst.head < dst.size → nread ≤ count → count - nread ≤ fuel →
      ∃ d : ringbuf_t,
        ringbuf_memcpy_into_loop src count dst.size fuel dst nread = .finished (d, count) ∧
        d.size = dst.size ∧ d.tail = dst.tail ∧ d.buf.length = dst.size ∧ d.head < dst.size ∧
        d.head = (dst.head + (count - nread)) % dst.size ∧
        d.buf.rotate d.head =
          (dst.buf.rotate dst.head ++ memRead src nread (count - nread)).drop (count - nread) := by
  intro fuel
  induction fuel with
  | zero =>
    intro dst nread hlen hhead hle hfuel
    have e : nread = count := by omega
    subst e
    refine ⟨dst, memcpy_into_loop_done _ _ _ _ _, rfl, rfl, hlen, hhead, ?_, ?_⟩
    · simp [Nat.mod_eq_of_lt hhead]
    · simp [memRead]
  | succ fuel ih =>
    intro dst nread hlen hhead hle hfuel
    by_cases e : nread = count
    · subst e
      refine ⟨dst, memcpy_into_loop_done _ _ _ _ _, rfl, rfl, hlen, hhead, ?_, ?_⟩
      · simp [Nat.mod_eq_of_lt hhead]
      · simp [memRead]
    · rw [memcpy_into_loop_step src count dst.size fuel dst nread e hhead]
      generalize hn : LWIP_MIN (dst.size - dst.head) (count - nread) = n
      have hn1 : n ≤ dst.size - dst.head := hn ▸ LWIP_MIN_le_left _ _
      have hn2 : n ≤ count - nread := hn ▸ LWIP_MIN_le_right _ _
      have hn3 : 0 < n := hn ▸ LWIP_MIN_pos _ _ (by omega) (by omega)
      have hseg : (memRead src nread n).length = n := memRead_length _ _ _ (by omega)
      have hrot := rotate_os_memcpy dst.buf dst.head n (memRead src nread n) hseg (by omega)
      have hlen2 : (os_memcpy dst.buf dst.head (memRead src nread n)).length = dst.size := by
        rw [os_memcpy_length _ _ _ (by omega), hlen]
      rw [hlen] at hrot
      have hh2 : (if dst.head + n = dst.size then 0 else dst.head + n) < dst.size := by
        split <;> omega
      have hmod : (if dst.head + n = dst.size then 0 else dst.head + n)
          = (dst.head + n) % dst.size := by
        split
        · next h => rw [h, Nat.mod_self]
        · next h => rw [Nat.mod_eq_of_lt (by omega)]
      obtain ⟨d, hd, h1, h2, h3, h4, h5, h6⟩ :=
        ih { buf := os_memcpy dst.buf dst.head (memRead src nread n),
             head := if dst.head + n = dst.size then 0 else dst.head + n,
             tail := dst.tail, size := dst.size } (nread + n) hlen2 hh2 (by omega) (by omega)
      refine ⟨d, hd, h1, h2, h3, h4, ?_, ?_⟩
      · rw [h5]
        show ((if dst.head + n = dst.size then 0 else dst.head + n) + (count - (nread + n)))
            % dst.size = _
        rw [hmod, Nat.mod_add_mod]
        congr 1
        omega
      · rw [h6]
        show (List.rotate (os_memcpy dst.buf dst.head (memRead src nread n))
            (if dst.head + n = dst.size then 0 else dst.head + n)
              ++ memRead src (nread + n) (count - (nread + n))).drop (count - (nread + n)) = _
        rw [hrot]
        have e2 : count - nread = n + (count - (nread + n)) := by omega
        have e3 : List.drop n (dst.buf.rotate dst.head ++ memRead src nread n
            ++ memRead src (nread + n) (count - (nread + n)))
            = List.drop n (dst.buf.rotate dst.head ++ memRead src nread n)
              ++ memRead src (nread + n) (count - (nread + n)) :=
          List.drop_append_of_le_length (by rw [List.length_append, hseg]; omega)
        rw [e2, memRead_add, ← List.append_assoc, ← List.drop_drop, e3]
theorem memRead_zero (mem : List Nat) (n : Nat) : memRead mem 0 n = mem.take n := by
  simp [memRead]

/-- Moving the read cursor to one past the write cursor makes the buffer full. -/
theorem is_full_after_nextp (buf : List Nat) (head tail size : Nat)
    (h : WF { buf := buf, head := head, tail := tail, size := size }) :
    WF { buf := buf, head := head, tail := (head + 1) % size, size := size } ∧
    ringbuf_is_full { buf := buf, head := head, tail := (head + 1) % size, size := size } = true := by
  obtain ⟨h1, h2, h3, h4⟩ := h
  simp only at h1 h2 h3 h4
  have hlt : (head + 1) % size < size := Nat.mod_lt _ (by omega)
  have hwf : WF { buf := buf, head := head, tail := (head + 1) % size, size := size } :=
    ⟨h1, h2, h3, hlt⟩
  refine ⟨hwf, ?_⟩
  have hf := bytes_free_eq _ hwf
  simp only at hf
  simp only [ringbuf_is_full, beq_iff_eq, hf]
  by_cases hc : head + 1 = size
  · rw [hc, Nat.mod_self]
    split <;> omega
  · rw [Nat.mod_eq_of_lt (by omega)]
    split <;> omega

/-- What `ringbuf_memcpy_into` does on a well-formed buffer: it returns the new write
cursor, no assertion fails, the buffer stays well-formed, and the read cursor moves
(to one past the write cursor) exactly when `count` exceeds the free bytes. -/
theorem memcpy_into_spec (dst : ringbuf_t) (src : List Nat) (count : Nat) (h : WF dst)
    (hsrc : count ≤ src.length) :
    ∃ d : ringbuf_t,
      ringbuf_memcpy_into dst src count = (d, .value d.head) ∧ WF d ∧ d.size = dst.size ∧
      d.head = (dst.head + count) % dst.size ∧
      d.buf.rotate d.head = (dst.buf.rotate dst.head ++ src.take count).drop count ∧
      d.tail = (if count > ringbuf_bytes_free dst then (d.head + 1) % dst.size else dst.tail) := by
  obtain ⟨h1, h2, h3, h4⟩ := h
  obtain ⟨⟨dbuf, dhead, dtail, dsize⟩, hd, e1, e2, e3, e4, e5, e6⟩ :=
    memcpy_into_loop_spec src count hsrc count dst 0 h1 h3 (Nat.zero_le _) (by omega)
  simp only at e1 e2 e3 e4 e5 e6
  subst e1 e2
  rw [Nat.sub_zero, memRead_zero] at e6
  rw [Nat.sub_zero] at e5
  unfold ringbuf_memcpy_into
  simp only [ringbuf_end, ringbuf_buffer_size, hd]
  by_cases hov : count > ringbuf_bytes_free dst
  · have hnext : ringbuf_nextp { buf := dbuf, head := dhead, tail := dst.tail, size := dst.size }
        dhead = some ((dhead + 1) % dst.size) := by
      simp [ringbuf_nextp, ringbuf_end, ringbuf_buffer_size, e4]
    obtain ⟨hwf, hfull⟩ := is_full_after_nextp dbuf dhead dst.tail dst.size ⟨e3, h2, e4, h4⟩
    simp only [hov, decide_True, if_true, hnext, hfull]
    exact ⟨_, rfl, hwf, rfl, e5, e6, rfl⟩
  · simp only [hov, decide_False, Bool.false_eq_true, if_false]
    exact ⟨_, rfl, ⟨e3, h2, e4, h4⟩, rfl, e5, e6, rfl⟩
/-! ## The last bytes of a list -/

theorem lastN_drop (k m : Nat) (l : List Nat) (h : k + m ≤ l.length) :
    lastN k (l.drop m) = lastN k l := by
  simp only [lastN, List.length_drop, List.drop_drop]
  congr 1
  omega

theorem lastN_append (k : Nat) (l s : List Nat) (h : k ≤ l.length) :
    lastN k l ++ s = lastN (k + s.length) (l ++ s) := by
  simp only [lastN, List.length_append]
  have e : l.length + s.length - (k + s.length) = l.length - k := by omega
  rw [e, List.drop_append_of_le_length (by omega)]

theorem lastN_lastN (c k : Nat) (l : List Nat) (h1 : c ≤ k) (h2 : k ≤ l.length) :
    lastN c (lastN k l) = lastN c l := by
  have e : lastN k l = l.drop (l.length - k) := rfl
  rw [e, lastN_drop _ _ _ (by omega)]

theorem lastN_of_length_le (k : Nat) (l : List Nat) (h : l.length ≤ k) : lastN k l = l := by
  simp only [lastN]
  have e : l.length - k = 0 := by omega
  rw [e, List.drop_zero]

/-! ## The buffered bytes after a write -/

theorem mod_of_lt_two_mul (a n : Nat) (h : a < 2 * n) :
    a % n = if a < n then a else a - n := by
  split
  · next h1 => exact Nat.mod_eq_of_lt h1
  · next h1 =>
    rw [Nat.mod_eq_sub_mod (by omega), Nat.mod_eq_of_lt (by omega)]

/-- The number of buffered bytes after `ringbuf_memcpy_into`. -/
theorem bytes_used_memcpy_into (dst : ringbuf_t) (src : List Nat) (count : Nat) (h : WF dst)
    (hsrc : count ≤ src.length) :
    ringbuf_bytes_used (ringbuf_memcpy_into dst src count).1 =
      if count > ringbuf_bytes_free dst then dst.size - 1 else ringbuf_bytes_used dst + count := by
  obtain ⟨d, hd, hwf, e1, e2, e3, e4⟩ := memcpy_into_spec dst src count h hsrc
  rw [hd]
  have hu := bytes_used_eq d hwf
  have hu0 := bytes_used_eq dst h
  have hf0 := bytes_free_eq dst h
  obtain ⟨h1, h2, h3, h4⟩ := h
  obtain ⟨g1, g2, g3, g4⟩ := hwf
  rw [e1] at g3 g4 hu
  show ringbuf_bytes_used d = _
  split
  · next hov =>
    rw [if_pos hov] at e4
    rw [hu, e4]
    by_cases hc : d.head + 1 = dst.size
    · rw [hc, Nat.mod_self]
      split <;> omega
    · rw [Nat.mod_eq_of_lt (by omega)]
      split <;> omega
  · next hov =>
    rw [if_neg hov] at e4
    have hlt : dst.head + count < 2 * dst.size := by
      rw [hf0] at hov
      split at hov <;> omega
    rw [mod_of_lt_two_mul _ _ hlt] at e2
    rw [hu, hu0, e4, e2]
    rw [hf0] at hov
    split at hov <;> split <;> split <;> omega

/-- The buffered bytes after `ringbuf_memcpy_into`: the old ones followed by the bytes
written, cut to the last `capacity` bytes. -/
theorem buffered_memcpy_into (dst : ringbuf_t) (src : List Nat) (count : Nat) (h : WF dst)
    (hsrc : count ≤ src.length) :
    buffered (ringbuf_memcpy_into dst src count).1 =
      lastN (dst.size - 1) (buffered dst ++ src.take count) := by
  have hused := bytes_used_memcpy_into dst src count h hsrc
  obtain ⟨d, hd, hwf, e1, e2, e3, e4⟩ := memcpy_into_spec dst src count h hsrc
  rw [hd] at hused ⊢
  simp only at hused ⊢
  have hlt := bytes_used_lt_size dst h
  have hsum := bytes_used_add_free dst h
  have hV : (dst.buf.rotate dst.head).length = dst.size := by
    rw [List.length_rotate]; exact h.1
  have hS : (src.take count).length = count := by
    rw [List.length_take]; omega
  rw [buffered_eq_lastN d hwf, buffered_eq_lastN dst h, e3, hused,
    lastN_append _ _ _ (by omega), hS]
  split
  · next hov =>
    rw [lastN_drop _ _ _ (by rw [List.length_append, hV, hS]; omega),
      lastN_lastN _ _ _ (by omega) (by rw [List.length_append, hV, hS]; omega)]
  · next hov =>
    rw [lastN_drop _ _ _ (by rw [List.length_append, hV, hS]; omega)]
    rw [lastN_of_length_le (dst.size - 1)]
    rw [lastN_length _ _ (by rw [List.length_append, hV, hS]; omega)]
    omega
/-! ## The read loop -/

theorem os_memcpy_os_memcpy (dst : List Nat) (p : Nat) (a b : List Nat) (hp : p ≤ dst.length) :
    os_memcpy (os_memcpy dst p a) (p + a.length) b = os_memcpy dst p (a ++ b) := by
  have h1 : (dst.take p ++ a).length = p + a.length := by
    rw [List.length_append, List.length_take]; omega
  simp only [os_memcpy]
  rw [List.take_left' h1, ← List.drop_drop, List.drop_left' h1, List.drop_drop,
    List.length_append]
  simp only [List.append_assoc, Nat.add_assoc]

theorem os_memcpy_nil (dst : List Nat) (p : Nat) : os_memcpy dst p [] = dst := by
  simp [os_memcpy]

theorem memcpy_from_loop_done (count bufend fuel : Nat) (dst : List Nat) (src : ringbuf_t) :
    ringbuf_memcpy_from_loop count bufend fuel dst src count = .finished (dst, src, count) := by
  cases fuel <;> simp [ringbuf_memcpy_from_loop]

theorem memcpy_from_loop_step (count bufend fuel : Nat) (dst : List Nat) (src : ringbuf_t)
    (nwritten : Nat) (hne : nwritten ≠ count) (hlt : src.tail < bufend) :
    ringbuf_memcpy_from_loop count bufend (fuel + 1) dst src nwritten =
      ringbuf_memcpy_from_loop count bufend fuel
        (os_memcpy dst nwritten
          (memRead src.buf src.tail (LWIP_MIN (bufend - src.tail) (count - nwritten))))
        { buf := src.buf, head := src.head,
          tail := if src.tail + LWIP_MIN (bufend - src.tail) (count - nwritten) = bufend then 0
                  else src.tail + LWIP_MIN (bufend - src.tail) (count - nwritten),
          size := src.size }
        (nwritten + LWIP_MIN (bufend - src.tail) (count - nwritten)) := by
  rw [ringbuf_memcpy_from_loop]
  simp only [if_neg hne, gt_iff_lt, hlt, not_true_eq_false, if_false]
  split <;> rfl

theorem memRead_eq_take_rotate (buf : List Nat) (pos n : Nat) (h : pos + n ≤ buf.length) :
    memRead buf pos n = (buf.rotate pos).take n := by
  rw [List.rotate_eq_drop_append_take (by omega),
    List.take_append_of_le_length (by rw [List.length_drop]; omega)]
  rfl

/-- The read loop from a state with the read cursor inside the storage: it ends, the
storage and the write cursor are untouched, the read cursor advances circularly and
the bytes read circularly from the old read cursor land in the destination. -/
theorem memcpy_from_loop_spec (count : Nat) :
    ∀ (fuel : Nat) (dst : List Nat) (src : ringbuf_t) (nwritten : Nat),
      src.buf.length = src.size → src.tail < src.size → nwritten ≤ count →
      count - nwritten ≤ fuel → count - nwritten ≤ src.size → nwritten ≤ dst.length →
      ∃ (d : List Nat) (s : ringbuf_t),
        ringbuf_memcpy_from_loop count src.size fuel dst src nwritten = .finished (d, s, count) ∧
        s.buf = src.buf ∧ s.head = src.head ∧ s.size = src.size ∧
        s.tail = (src.tail + (count - nwritten)) % src.size ∧
        d = os_memcpy dst nwritten ((src.buf.rotate src.tail).take (count - nwritten)) := by
  intro fuel
  induction fuel with
  | zero =>
    intro dst src nw hlen htail hle hfuel hsz hdst
    have e : nw = count := by omega
    subst e
    refine ⟨dst, src, memcpy_from_loop_done _ _ _ _ _, rfl, rfl, rfl, ?_, ?_⟩
    · simp [Nat.mod_eq_of_lt htail]
    · simp [os_memcpy_nil]
  | succ fuel ih =>
    intro dst src nw hlen htail hle hfuel hsz hdst
    by_cases e : nw = count
    · subst e
      refine ⟨dst, src, memcpy_from_loop_done _ _ _ _ _, rfl, rfl, rfl, ?_, ?_⟩
      · simp [Nat.mod_eq_of_lt htail]
      · simp [os_memcpy_nil]
    · rw [memcpy_from_loop_step count src.size fuel dst src nw e htail]
      generalize hn : LWIP_MIN (src.size - src.tail) (count - nw) = n
      have hn1 : n ≤ src.size - src.tail := hn ▸ LWIP_MIN_le_left _ _
      have hn2 : n ≤ count - nw := hn ▸ LWIP_MIN_le_right _ _
      have hn3 : 0 < n := hn ▸ LWIP_MIN_pos _ _ (by omega) (by omega)
      have hseg : memRead src.buf src.tail n = (src.buf.rotate src.tail).take n :=
        memRead_eq_take_rotate _ _ _ (by omega)
      have hsegl : ((src.buf.rotate src.tail).take n).length = n := by
        rw [List.length_take, List.length_rotate]; omega
      have hmod : (if src.tail + n = src.size then 0 else src.tail + n)
          = (src.tail + n) % src.size := by
        split
        · next h => rw [h, Nat.mod_self]
        · next h => rw [Nat.mod_eq_of_lt (by omega)]
      have ht2 : (if src.tail + n = src.size then 0 else src.tail + n) < src.size := by
        split <;> omega
      have hd1 : nw + n ≤ (os_memcpy dst nw (memRead src.buf src.tail n)).length := by
        rw [hseg]
        simp only [os_memcpy, List.length_append, List.length_take, hsegl]
        omega
      obtain ⟨d, s, hd, g1, g2, g3, g4, g5⟩ :=
        ih (os_memcpy dst nw (memRead src.buf src.tail n))
          { buf := src.buf, head := src.head,
            tail := if src.tail + n = src.size then 0 else src.tail + n, size := src.size }
          (nw + n) hlen ht2 (by omega) (by omega)
          (show count - (nw + n) ≤ src.size by omega) hd1
      simp only at hd g1 g2 g3 g4 g5
      refine ⟨d, s, hd, g1, g2, g3, ?_, ?_⟩
      · rw [g4, hmod, Nat.mod_add_mod]
        congr 1
        omega
      · rw [g5, hmod, ← hlen, List.rotate_mod, ← List.rotate_rotate,
          List.rotate_eq_drop_append_take (by rw [List.length_rotate]; omega),
          List.take_append_of_le_length
            (by rw [List.length_drop, List.length_rotate]; omega),
          hseg]
        have e2 : count - nw = n + (count - (nw + n)) := by omega
        rw [e2, List.take_add]
        have e3 := os_memcpy_os_memcpy dst nw ((src.buf.rotate src.tail).take n)
          (List.take (count - (nw + n)) (List.drop n (src.buf.rotate src.tail))) hdst
        rw [hsegl] at e3
        rw [e3]
/-- The buffered bytes are the first `bytes_used` bytes of the storage read circularly
from the read cursor. -/
theorem buffered_eq_take_rotate (rb : ringbuf_t) (h : WF rb) :
    buffered rb = (rb.buf.rotate rb.tail).take (ringbuf_bytes_used rb) := by
  have hu := bytes_used_eq rb h
  obtain ⟨h1, h2, h3, h4⟩ := h
  rw [hu, List.rotate_eq_drop_append_take (by omega)]
  simp only [buffered]
  split
  · next hle =>
    rw [List.take_append_of_le_length (by rw [List.length_drop]; omega)]
  · next hlt =>
    have e : rb.size - rb.tail + rb.head = (rb.buf.drop rb.tail).length + rb.head := by
      rw [List.length_drop]; omega
    rw [e, List.take_append, List.take_take]
    congr 2
    omega

/-- What `ringbuf_memcpy_from` does on a well-formed buffer when `count` bytes are
buffered: no assertion fails, the first `count` buffered bytes land at the start of
the destination, the read cursor advances circularly and is returned, storage and
write cursor are untouched. -/
theorem memcpy_from_spec (dst : List Nat) (src : ringbuf_t) (count : Nat) (h : WF src)
    (hc : count ≤ ringbuf_bytes_used src) :
    ∃ s : ringbuf_t,
      ringbuf_memcpy_from dst src count =
        ((buffered src).take count ++ dst.drop count, s, .value (some s.tail)) ∧
      WF s ∧ s.buf = src.buf ∧ s.head = src.head ∧ s.size = src.size ∧
      s.tail = (src.tail + count) % src.size ∧
      ringbuf_bytes_used s = ringbuf_bytes_used src - count ∧
      buffered s = (buffered src).drop count := by
  have hlt := bytes_used_lt_size src h
  have hu0 := bytes_used_eq src h
  have hb0 := buffered_eq_take_rotate src h
  obtain ⟨h1, h2, h3, h4⟩ := h
  obtain ⟨d, s, hd, g1, g2, g3, g4, g5⟩ :=
    memcpy_from_loop_spec count count dst src 0 h1 h4 (Nat.zero_le _) (by omega) (by omega)
      (Nat.zero_le _)
  rw [Nat.sub_zero] at g4 g5
  have hwf : WF s :=
    ⟨by rw [g1, g3]; exact h1, by rw [g3]; exact h2, by rw [g2, g3]; exact h3,
      by rw [g4, g3]; exact Nat.mod_lt _ (by omega)⟩
  have hu := bytes_used_eq _ hwf
  have hused : ringbuf_bytes_used s = ringbuf_bytes_used src - count := by
    rw [hu, hu0, g4, g3, g2, mod_of_lt_two_mul _ _ (by omega)]
    rw [hu0] at hc
    split at hc <;> split <;> split <;> omega
  have hdst : d = (buffered src).take count ++ dst.drop count := by
    rw [g5, hb0, List.take_take, Nat.min_eq_left hc]
    simp only [os_memcpy, List.take_zero, List.nil_append, Nat.zero_add, List.length_take,
      List.length_rotate]
    congr 2
    omega
  have hbuf : buffered s = (buffered src).drop count := by
    rw [buffered_eq_take_rotate _ hwf, hused, hb0, g1, g4, ← h1, List.rotate_mod,
      ← List.rotate_rotate,
      List.rotate_eq_drop_append_take (by rw [List.length_rotate]; omega),
      List.take_append_of_le_length (by rw [List.length_drop, List.length_rotate]; omega),
      List.drop_take]
  have hassert : wadd count (ringbuf_bytes_used s) = ringbuf_bytes_used src := by
    rw [hused]
    simp only [wadd, WORD] at *
    omega
  refine ⟨s, ?_, hwf, g1, g2, g3, g4, hused, hbuf⟩
  unfold ringbuf_memcpy_from
  simp only [gt_iff_lt, Nat.not_lt.mpr hc, if_false, ringbuf_end, ringbuf_buffer_size, hd,
    hassert, if_true, hdst]
/-! ## Consequences used by the claims -/

theorem is_empty_iff_used_zero (rb : ringbuf_t) (h : WF rb) :
    ringbuf_is_empty rb = true ↔ ringbuf_bytes_used rb = 0 := by
  have h1 := bytes_used_add_free rb h
  have h2 := capacity_eq rb h
  simp only [ringbuf_is_empty, beq_iff_eq, h2]
  omega

theorem is_full_iff_used_capacity (rb : ringbuf_t) (h : WF rb) :
    ringbuf_is_full rb = true ↔ ringbuf_bytes_used rb = ringbuf_capacity rb := by
  have h1 := bytes_used_add_free rb h
  have h2 := capacity_eq rb h
  simp only [ringbuf_is_full, beq_iff_eq, h2]
  omega

theorem buffered_nil_of_cursors_eq (rb : ringbuf_t) (h : WF rb) (he : rb.tail = rb.head) :
    buffered rb = [] ∧ ringbuf_bytes_used rb = 0 := by
  have hu := bytes_used_eq rb h
  rw [if_pos (Nat.le_of_eq he), he, Nat.sub_self] at hu
  have hl := buffered_length rb h
  rw [hu] at hl
  exact ⟨List.eq_nil_of_length_eq_zero hl, hu⟩

/-- What `ringbuf_memcpy_into` returns and leaves, in one statement. -/
theorem memcpy_into_result (dst : ringbuf_t) (src : List Nat) (h : WF dst) :
    ∃ d : ringbuf_t,
      ringbuf_memcpy_into dst src src.length = (d, .value d.head) ∧ WF d ∧ d.size = dst.size ∧
      d.head = (dst.head + src.length) % dst.size ∧
      d.tail = (if src.length > ringbuf_bytes_free dst then (d.head + 1) % dst.size
                else dst.tail) ∧
      ringbuf_bytes_used d = (if src.length > ringbuf_bytes_free dst then dst.size - 1
                              else ringbuf_bytes_used dst + src.length) ∧
      buffered d = lastN (dst.size - 1) (buffered dst ++ src) := by
  have hu := bytes_used_memcpy_into dst src src.length h (le_refl _)
  have hb := buffered_memcpy_into dst src src.length h (le_refl _)
  obtain ⟨d, hd, hwf, e1, e2, _, e4⟩ := memcpy_into_spec dst src src.length h (le_refl _)
  rw [hd] at hu hb
  rw [List.take_length] at hb
  exact ⟨d, hd, hwf, e1, e2, e4, hu, hb⟩
/-! ## The claims -/

/-- C1. Round trip: on a well-formed empty buffer (read cursor equal to write cursor,
anywhere in the storage), copying in a sequence `B` of at most `capacity` bytes and
then copying out `len B` bytes succeeds, puts exactly `B` at the start of the
destination (the rest of the destination is untouched) and leaves the buffer empty. -/
theorem C1_round_trip (rb : ringbuf_t) (B dst : List Nat) (hwf : WF rb)
    (hempty : rb.tail = rb.head) (hB : B.length ≤ ringbuf_capacity rb) :
    ∃ d s : ringbuf_t,
      ringbuf_memcpy_into rb B B.length = (d, .value d.head) ∧
      ringbuf_memcpy_from dst d B.length = (B ++ dst.drop B.length, s, .value (some s.tail)) ∧
      s.tail = s.head ∧ ringbuf_is_empty s = true ∧ ringbuf_bytes_used s = 0 := by
  obtain ⟨hnil, hu0⟩ := buffered_nil_of_cursors_eq rb hwf hempty
  have hsum := bytes_used_add_free rb hwf
  rw [capacity_eq rb hwf] at hB
  obtain ⟨d, hd, hwfd, _, _, _, hud, hbd⟩ := memcpy_into_result rb B hwf
  rw [if_neg (by omega), hu0, Nat.zero_add] at hud
  rw [hnil, List.nil_append, lastN_of_length_le _ _ hB] at hbd
  obtain ⟨s, hs, hwfs, _, _, _, _, hus, _⟩ :=
    memcpy_from_spec dst d B.length hwfd (by omega)
  rw [hbd, List.take_length] at hs
  rw [hud, Nat.sub_self] at hus
  refine ⟨d, s, hd, hs, ?_, (is_empty_iff_used_zero s hwfs).mpr hus, hus⟩
  have hu := bytes_used_eq s hwfs
  obtain ⟨_, _, g3, g4⟩ := hwfs
  rw [hus] at hu
  split at hu <;> omega

/-- Witness of C1 on a buffer whose cursors are two bytes before the end of the
storage, so that the three bytes cross the end. -/
theorem C1_round_trip_witness :
    WF sampleEmpty ∧ sampleEmpty.tail = sampleEmpty.head ∧
    [1, 2, 3].length ≤ ringbuf_capacity sampleEmpty ∧
    ∃ d s : ringbuf_t,
      ringbuf_memcpy_into sampleEmpty [1, 2, 3] [1, 2, 3].length = (d, .value d.head) ∧
      ringbuf_memcpy_from [0, 0, 0, 7] d [1, 2, 3].length
        = ([1, 2, 3] ++ [0, 0, 0, 7].drop [1, 2, 3].length, s, .value (some s.tail)) ∧
      s.tail = s.head ∧ ringbuf_is_empty s = true ∧ ringbuf_bytes_used s = 0 :=
  ⟨by decide, by decide, by decide,
    C1_round_trip sampleEmpty [1, 2, 3] [0, 0, 0, 7] (by decide) (by decide) (by decide)⟩

/-- C2. Overflow law: copying `n > capacity` bytes (however many) into a well-formed
empty buffer leaves it full, with `bytes_used` equal to the capacity, and the buffered
bytes, read circularly from the read cursor, are the last `capacity` bytes of the
input. This holds for every capacity, so for every capacity `c >= 1`. -/
theorem C2_overflow_law (rb : ringbuf_t) (B : List Nat) (hwf : WF rb)
    (hempty : rb.tail = rb.head) (hB : B.length > ringbuf_capacity rb) :
    ∃ d : ringbuf_t,
      ringbuf_memcpy_into rb B B.length = (d, .value d.head) ∧
      ringbuf_bytes_used d = ringbuf_capacity rb ∧ ringbuf_is_full d = true ∧
      buffered d = lastN (ringbuf_capacity rb) B := by
  obtain ⟨hnil, hu0⟩ := buffered_nil_of_cursors_eq rb hwf hempty
  have hsum := bytes_used_add_free rb hwf
  have hcap := capacity_eq rb hwf
  rw [hcap] at hB ⊢
  obtain ⟨d, hd, hwfd, hsz, _, _, hud, hbd⟩ := memcpy_into_result rb B hwf
  rw [if_pos (by omega)] at hud
  rw [hnil, List.nil_append] at hbd
  refine ⟨d, hd, hud, ?_, hbd⟩
  rw [is_full_iff_used_capacity d hwfd, capacity_eq d hwfd, hud, hsz]

/-- Witness of C2: thirteen bytes into an empty buffer of capacity 4. -/
theorem C2_overflow_law_witness :
    WF sampleEmpty ∧ sampleEmpty.tail = sampleEmpty.head ∧
    [1, 2, 3, 4, 5, 6, 7, 8, 9, 10, 11, 12, 13].length > ringbuf_capacity sampleEmpty ∧
    ∃ d : ringbuf_t,
      ringbuf_memcpy_into sampleEmpty [1, 2, 3, 4, 5, 6, 7, 8, 9, 10, 11, 12, 13]
        [1, 2, 3, 4, 5, 6, 7, 8, 9, 10, 11, 12, 13].length = (d, .value d.head) ∧
      ringbuf_bytes_used d = ringbuf_capacity sampleEmpty ∧ ringbuf_is_full d = true ∧
      buffered d = lastN (ringbuf_capacity sampleEmpty)
        [1, 2, 3, 4, 5, 6, 7, 8, 9, 10, 11, 12, 13] :=
  ⟨by decide, by decide, by decide,
    C2_overflow_law sampleEmpty [1, 2, 3, 4, 5, 6, 7, 8, 9, 10, 11, 12, 13]
      (by decide) (by decide) (by decide)⟩
/-- C3. `ringbuf_memcpy_from` returns NULL exactly when `count > bytes_used`, and then
the buffer (cursors and storage) and the destination are returned unchanged; on a
well-formed buffer every `count <= bytes_used`, so `count = bytes_used` too, succeeds
with the new read cursor, and `count = 0` succeeds on every buffer. -/
theorem C3_memcpy_from_failure (dst : List Nat) (src : ringbuf_t) (count : Nat) :
    (count > ringbuf_bytes_used src →
      ringbuf_memcpy_from dst src count = (dst, src, .value none)) ∧
    ((ringbuf_memcpy_from dst src count).2.2 = .value none → count > ringbuf_bytes_used src) ∧
    (WF src → count ≤ ringbuf_bytes_used src →
      ∃ s : ringbuf_t, (ringbuf_memcpy_from dst src count).2 = (s, .value (some s.tail))) ∧
    (WF src → ∃ s : ringbuf_t,
      (ringbuf_memcpy_from dst src (ringbuf_bytes_used src)).2 = (s, .value (some s.tail))) ∧
    ringbuf_memcpy_from dst src 0 = (dst, src, .value (some src.tail)) := by
  refine ⟨?_, ?_, ?_, ?_, ?_⟩
  · intro h
    simp [ringbuf_memcpy_from, h]
  · intro h
    by_contra hle
    revert h
    unfold ringbuf_memcpy_from
    simp only [if_neg hle]
    split
    · simp
    · simp
    · split <;> simp
  · intro hwf hle
    obtain ⟨s, hs, _⟩ := memcpy_from_spec dst src count hwf hle
    exact ⟨s, by rw [hs]⟩
  · intro hwf
    obtain ⟨s, hs, _⟩ := memcpy_from_spec dst src _ hwf (le_refl _)
    exact ⟨s, by rw [hs]⟩
  · have hlt : ringbuf_bytes_used src < WORD := by
      simp only [ringbuf_bytes_used, wsub, WORD]
      omega
    have hw : wadd 0 (ringbuf_bytes_used src) = ringbuf_bytes_used src := by
      simp only [wadd, Nat.zero_add]
      exact Nat.mod_eq_of_lt hlt
    unfold ringbuf_memcpy_from
    simp [memcpy_from_loop_done, hw]

/-- Witness of C3 on a buffer holding three bytes: four are refused, three are given. -/
theorem C3_memcpy_from_failure_witness :
    4 > ringbuf_bytes_used sampleWrapped ∧ WF sampleWrapped ∧
    3 ≤ ringbuf_bytes_used sampleWrapped ∧
    ringbuf_memcpy_from [1, 1, 1, 1] sampleWrapped 4 = ([1, 1, 1, 1], sampleWrapped, .value none) ∧
    ∃ s : ringbuf_t,
      (ringbuf_memcpy_from [1, 1, 1, 1] sampleWrapped 3).2 = (s, .value (some s.tail)) :=
  ⟨by decide, by decide, by decide,
    (C3_memcpy_from_failure [1, 1, 1, 1] sampleWrapped 4).1 (by decide),
    (C3_memcpy_from_failure [1, 1, 1, 1] sampleWrapped 3).2.2.1 (by decide) (by decide)⟩

/-- C4. On a well-formed buffer whose buffered bytes are `L`, `ringbuf_memcpy_from`
with `count <= len L` writes the first `count` bytes of `L`, in order, at the start
of the destination (the rest of the destination is untouched), leaves `L` without its
first `count` bytes buffered, returns the new read cursor, which is
`(old read cursor + count) mod size`, and leaves the write cursor, the size and the
whole storage unchanged. -/
theorem C4_memcpy_from_content (dst : List Nat) (rb : ringbuf_t) (count : Nat) (hwf : WF rb)
    (hcount : count ≤ (buffered rb).length) :
    ∃ s : ringbuf_t,
      ringbuf_memcpy_from dst rb count =
        ((buffered rb).take count ++ dst.drop count, s, .value (some s.tail)) ∧
      buffered s = (buffered rb).drop count ∧
      s.tail = (rb.tail + count) % rb.size ∧
      s.head = rb.head ∧ s.buf = rb.buf ∧ s.size = rb.size := by
  rw [buffered_length rb hwf] at hcount
  obtain ⟨s, hs, _, g1, g2, g3, g4, _, g6⟩ := memcpy_from_spec dst rb count hwf hcount
  exact ⟨s, hs, g6, g4, g2, g1, g3⟩

/-- Witness of C4: two of the three bytes buffered across the end of the storage. -/
theorem C4_memcpy_from_content_witness :
    WF sampleWrapped ∧ 2 ≤ (buffered sampleWrapped).length ∧
    ∃ s : ringbuf_t,
      ringbuf_memcpy_from [0, 0, 0] sampleWrapped 2 =
        ((buffered sampleWrapped).take 2 ++ [0, 0, 0].drop 2, s, .value (some s.tail)) ∧
      buffered s = (buffered sampleWrapped).drop 2 ∧
      s.tail = (sampleWrapped.tail + 2) % sampleWrapped.size ∧
      s.head = sampleWrapped.head ∧ s.buf = sampleWrapped.buf ∧
      s.size = sampleWrapped.size :=
  ⟨by decide, by decide, C4_memcpy_from_content [0, 0, 0] sampleWrapped 2 (by decide) (by decide)⟩

/-- C5. On a well-formed buffer whose buffered bytes are `L`, `ringbuf_memcpy_into`
with a source `B` of `count = len B <= bytes_free` bytes makes the buffered bytes
exactly `L` followed by `B`, leaves the read cursor unchanged and returns the new
write cursor, which is `(old write cursor + count) mod size`. -/
theorem C5_memcpy_into_append (rb : ringbuf_t) (B : List Nat) (hwf : WF rb)
    (hB : B.length ≤ ringbuf_bytes_free rb) :
    ∃ d : ringbuf_t,
      ringbuf_memcpy_into rb B B.length = (d, .value d.head) ∧
      buffered d = buffered rb ++ B ∧
      d.tail = rb.tail ∧
      d.head = (rb.head + B.length) % rb.size := by
  have hsum := bytes_used_add_free rb hwf
  have hl := buffered_length rb hwf
  obtain ⟨d, hd, _, _, e2, e4, _, hb⟩ := memcpy_into_result rb B hwf
  rw [if_neg (by omega)] at e4
  rw [lastN_of_length_le _ _ (by rw [List.length_append, hl]; omega)] at hb
  exact ⟨d, hd, hb, e4, e2⟩

/-- Witness of C5: two bytes written across the end of the storage. -/
theorem C5_memcpy_into_append_witness :
    WF samplePartial ∧ [67, 68].length ≤ ringbuf_bytes_free samplePartial ∧
    ∃ d : ringbuf_t,
      ringbuf_memcpy_into samplePartial [67, 68] [67, 68].length = (d, .value d.head) ∧
      buffered d = buffered samplePartial ++ [67, 68] ∧
      d.tail = samplePartial.tail ∧
      d.head = (samplePartial.head + [67, 68].length) % samplePartial.size :=
  ⟨by decide, by decide, C5_memcpy_into_append samplePartial [67, 68] (by decide) (by decide)⟩

/-- C6. Eviction: on a well-formed buffer (empty or not) whose buffered bytes are `L`,
`ringbuf_memcpy_into` with a source `B` of `count = len B > bytes_free` bytes leaves
buffered `L ++ B` without its oldest `count - bytes_free` bytes, which are the last
`capacity` bytes of `L ++ B`. In particular with capacity 4, copying in `AB` and then
`CDE` leaves `BCDE`, and copying out 4 bytes then returns `BCDE` and empties the
buffer. -/
theorem C6_eviction :
    (∀ (rb : ringbuf_t) (B : List Nat), WF rb → ringbuf_bytes_free rb < B.length →
      ∃ d : ringbuf_t,
        ringbuf_memcpy_into rb B B.length = (d, .value d.head) ∧
        buffered d = (buffered rb ++ B).drop (B.length - ringbuf_bytes_free rb) ∧
        buffered d = lastN (ringbuf_capacity rb) (buffered rb ++ B)) ∧
    (∃ d1 d2 s : ringbuf_t,
      ringbuf_new 4 true true = some sampleFresh ∧
      ringbuf_memcpy_into sampleFresh [65, 66] 2 = (d1, .value d1.head) ∧
      ringbuf_bytes_used d1 = 2 ∧
      ringbuf_memcpy_into d1 [67, 68, 69] 3 = (d2, .value d2.head) ∧
      buffered d2 = [66, 67, 68, 69] ∧
      ringbuf_memcpy_from [0, 0, 0, 0] d2 4 = ([66, 67, 68, 69], s, .value (some s.tail)) ∧
      ringbuf_is_empty s = true) := by
  refine ⟨?_, ?_⟩
  · intro rb B hwf hB
    have hsum := bytes_used_add_free rb hwf
    have hl := buffered_length rb hwf
    have hcap := capacity_eq rb hwf
    obtain ⟨d, hd, _, _, _, _, _, hb⟩ := memcpy_into_result rb B hwf
    refine ⟨d, hd, ?_, by rw [hcap]; exact hb⟩
    have e : (buffered rb ++ B).length - (rb.size - 1) = B.length - ringbuf_bytes_free rb := by
      rw [List.length_append, hl]
      omega
    rw [hb, lastN, e]
  · exact ⟨{ buf := [65, 66, 0, 0, 0], head := 2, tail := 0, size := 5 },
      { buf := [65, 66, 67, 68, 69], head := 0, tail := 1, size := 5 },
      { buf := [65, 66, 67, 68, 69], head := 0, tail := 0, size := 5 },
      by decide, by decide, by decide, by decide, by decide, by decide, by decide⟩

/-- Witness of C6: three bytes into a buffer of capacity 4 that holds two. -/
theorem C6_eviction_witness :
    WF samplePartial ∧ ringbuf_bytes_free samplePartial < [67, 68, 69].length ∧
    ∃ d : ringbuf_t,
      ringbuf_memcpy_into samplePartial [67, 68, 69] [67, 68, 69].length = (d, .value d.head) ∧
      buffered d = (buffered samplePartial ++ [67, 68, 69]).drop
        ([67, 68, 69].length - ringbuf_bytes_free samplePartial) ∧
      buffered d = lastN (ringbuf_capacity samplePartial) (buffered samplePartial ++ [67, 68, 69]) :=
  ⟨by decide, by decide, C6_eviction.1 samplePartial [67, 68, 69] (by decide) (by decide)⟩
/-- The buffer `ringbuf_new` creates is well-formed when `capacity + 1` is the size of
a C object. -/
theorem ringbuf_new_WF (capacity : Nat) (a b : Bool) (rb : ringbuf_t)
    (hcap : capacity + 1 < WORD) (hnew : ringbuf_new capacity a b = some rb) :
    WF rb ∧ rb.head = 0 ∧ rb.tail = 0 ∧ rb.size = capacity + 1 := by
  have hw : wadd capacity 1 = capacity + 1 := by
    simp only [wadd, WORD] at *
    omega
  unfold ringbuf_new at hnew
  by_cases ha : a = true
  · by_cases hb : b = true
    · simp only [ha, hb, if_true, ringbuf_reset, hw, Option.some.injEq] at hnew
      subst hnew
      refine ⟨⟨?_, ?_, ?_, ?_⟩, rfl, rfl, rfl⟩
      · simp
      · exact hcap
      · show 0 < capacity + 1
        omega
      · show 0 < capacity + 1
        omega
    · simp [ha, hb] at hnew
  · simp [ha] at hnew

/-- Along a sequence of calls that stays within the bounds, the buffer stays
well-formed and the bytes used grow by what is copied in and shrink by what is
copied out. -/
theorem runCalls_bytes_used (calls : List Call) :
    ∀ rb : ringbuf_t, WF rb → withinBounds rb calls →
      WF (runCalls rb calls) ∧
      ringbuf_bytes_used (runCalls rb calls) + bytesOut calls
        = ringbuf_bytes_used rb + bytesIn calls := by
  induction calls with
  | nil =>
    intro rb hwf _
    exact ⟨hwf, rfl⟩
  | cons c cs ih =>
    intro rb hwf hb
    cases c with
    | copyIn src =>
      obtain ⟨h1, h2⟩ := hb
      obtain ⟨d, hd, hwfd, _, _, _, hu, _⟩ := memcpy_into_result rb src hwf
      rw [if_neg (by omega)] at hu
      have e : applyCall rb (.copyIn src) = d := by
        simp only [applyCall, hd]
      rw [e] at h2
      obtain ⟨g1, g2⟩ := ih d hwfd h2
      simp only [runCalls, bytesIn, bytesOut, e]
      exact ⟨g1, by omega⟩
    | copyOut dst count =>
      obtain ⟨h1, h2⟩ := hb
      obtain ⟨s, hs, hwfs, _, _, _, _, hu, _⟩ := memcpy_from_spec dst rb count hwf h1
      have e : applyCall rb (.copyOut dst count) = s := by
        simp only [applyCall, hs]
      rw [e] at h2
      obtain ⟨g1, g2⟩ := ih s hwfs h2
      simp only [runCalls, bytesIn, bytesOut, e]
      exact ⟨g1, by omega⟩

/-- C7 as stated fails at capacity 4294967295: `capacity + 1` wraps to 0, the record
created has a storage of 0 bytes and reports 4294967295 bytes free, a `copyIn` of one
byte is within that bound, stops at the first assertion of the loop, and `bytes_used`
is 0 afterwards although one byte was copied in and none out. -/
theorem C7_counterexample :
    ringbuf_new 4294967295 true true = some sampleZero ∧
    withinBounds sampleZero [.copyIn [7]] ∧
    ringbuf_memcpy_into sampleZero [7] 1 = (sampleZero, .asserted) ∧
    ringbuf_bytes_used (runCalls sampleZero [.copyIn [7]]) = 0 ∧
    bytesIn [.copyIn [7]] - bytesOut [.copyIn [7]] = 1 := by
  refine ⟨by decide, ⟨by decide, trivial⟩, by decide, by decide, by decide⟩

/-- C7, amended. No silent loss: for every capacity with `capacity + 1` below `2^32`
and every finite sequence of `ringbuf_memcpy_into` and `ringbuf_memcpy_from` calls applied to the buffer `ringbuf_new` creates, in which each
`copyIn` count is at most the bytes free at that moment and each `copyOut` count at
most the bytes used at that moment, `bytes_used` after the sequence is the total
copied in minus the total copied out. -/
theorem C7_no_silent_loss (capacity : Nat) (a b : Bool) (rb : ringbuf_t) (calls : List Call)
    (hcap : capacity + 1 < WORD) (hnew : ringbuf_new capacity a b = some rb)
    (hb : withinBounds rb calls) :
    ringbuf_bytes_used (runCalls rb calls) = bytesIn calls - bytesOut calls ∧
    bytesOut calls ≤ bytesIn calls := by
  obtain ⟨hwf, h1, h2, _⟩ := ringbuf_new_WF capacity a b rb hcap hnew
  obtain ⟨_, g⟩ := runCalls_bytes_used calls rb hwf hb
  have hz := (buffered_nil_of_cursors_eq rb hwf (by rw [h1, h2])).2
  omega

/-- Witness of C7: capacity 4, in 3, out 2, in 3 (across the end of the storage),
out 4. -/
theorem C7_no_silent_loss_witness :
    4 + 1 < WORD ∧ ringbuf_new 4 true true = some sampleFresh ∧
    withinBounds sampleFresh
      [.copyIn [1, 2, 3], .copyOut [0, 0] 2, .copyIn [4, 5, 6], .copyOut [0, 0, 0, 0] 4] ∧
    ringbuf_bytes_used (runCalls sampleFresh
      [.copyIn [1, 2, 3], .copyOut [0, 0] 2, .copyIn [4, 5, 6], .copyOut [0, 0, 0, 0] 4])
      = bytesIn [.copyIn [1, 2, 3], .copyOut [0, 0] 2, .copyIn [4, 5, 6],
          .copyOut [0, 0, 0, 0] 4]
        - bytesOut [.copyIn [1, 2, 3], .copyOut [0, 0] 2, .copyIn [4, 5, 6],
          .copyOut [0, 0, 0, 0] 4] ∧
    bytesOut [.copyIn [1, 2, 3], .copyOut [0, 0] 2, .copyIn [4, 5, 6], .copyOut [0, 0, 0, 0] 4]
      ≤ bytesIn [.copyIn [1, 2, 3], .copyOut [0, 0] 2, .copyIn [4, 5, 6],
          .copyOut [0, 0, 0, 0] 4] :=
  ⟨by decide, by decide, ⟨by decide, by decide, by decide, by decide, trivial⟩,
    C7_no_silent_loss 4 true true sampleFresh _ (by decide) (by decide)
      ⟨by decide, by decide, by decide, by decide, trivial⟩⟩
/-! ## The search -/

theorem memchr_eq (mem : List Nat) (pos : Nat) (c : Int) (n : Nat) :
    memchr mem pos c n =
      if (memRead mem pos n).indexOf (toByte c) < (memRead mem pos n).length
      then some ((memRead mem pos n).indexOf (toByte c)) else none := rfl

/-- The segment `ringbuf_findchr` scans at `offset` is a prefix of the buffered bytes
from `offset` on. -/
theorem findchr_segment (rb : ringbuf_t) (h : WF rb) (offset n : Nat)
    (ho : offset < ringbuf_bytes_used rb)
    (hn1 : n ≤ rb.size - (rb.tail + offset) % rb.size)
    (hn2 : n ≤ ringbuf_bytes_used rb - offset) :
    memRead rb.buf ((rb.tail + offset) % rb.size) n = ((buffered rb).drop offset).take n := by
  have hlt := bytes_used_lt_size rb h
  have hb := buffered_eq_take_rotate rb h
  obtain ⟨h1, h2, h3, h4⟩ := h
  have hm : (rb.tail + offset) % rb.size < rb.size := Nat.mod_lt _ (by omega)
  rw [memRead_eq_take_rotate _ _ _ (by omega), hb, List.drop_take, List.take_take,
    Nat.min_eq_left hn2]
  rw [← h1, List.rotate_mod, ← List.rotate_rotate,
    List.rotate_eq_drop_append_take (by rw [List.length_rotate]; omega),
    List.take_append_of_le_length (by rw [List.length_drop, List.length_rotate]; omega)]

/-- Where the scan at `offset` starts: the 32-bit sum of line 196 reduced modulo
`size`. When the sum does not wrap this is the position of the buffered byte of index
`offset`; when it wraps, the position of the byte of index `offset - (2^32 - size)`,
and all the bytes left fit before the end of the storage. -/
theorem findchr_start (rb : ringbuf_t) (h : WF rb) (offset : Nat)
    (ho : offset < ringbuf_bytes_used rb) :
    wadd rb.tail offset % rb.size < rb.size ∧
    (rb.tail + offset < WORD → wadd rb.tail offset % rb.size = (rb.tail + offset) % rb.size) ∧
    (WORD ≤ rb.tail + offset →
      WORD - rb.size ≤ offset ∧
      wadd rb.tail offset % rb.size = (rb.tail + (offset - (WORD - rb.size))) % rb.size ∧
      ringbuf_bytes_used rb - offset ≤ rb.size - wadd rb.tail offset % rb.size) := by
  have hlt := bytes_used_lt_size rb h
  obtain ⟨h1, h2, h3, h4⟩ := h
  have hW : WORD = 4294967296 := rfl
  refine ⟨Nat.mod_lt _ (by omega), ?_, ?_⟩
  · intro hno
    have e : wadd rb.tail offset = rb.tail + offset := by
      simp only [wadd]
      exact Nat.mod_eq_of_lt hno
    rw [e]
  · intro hwrap
    have e : wadd rb.tail offset = rb.tail + offset - WORD := by
      simp only [wadd]
      rw [mod_of_lt_two_mul _ _ (by omega), if_neg (by omega)]
    have e1 : (rb.tail + offset - WORD) % rb.size = rb.tail + offset - WORD :=
      Nat.mod_eq_of_lt (by omega)
    have e2 : (rb.tail + (offset - (WORD - rb.size))) % rb.size = rb.tail + offset - WORD := by
      rw [mod_of_lt_two_mul _ _ (by omega)]
      split <;> omega
    rw [e, e1, e2]
    exact ⟨by omega, rfl, by omega⟩

/-- The result of the search from an offset at which the 32-bit sum of line 196 does
not wrap. -/
theorem findchr_rec_spec (rb : ringbuf_t) (c : Int) (h : WF rb) :
    ∀ (fuel offset : Nat), ringbuf_bytes_used rb - offset ≤ fuel →
      (offset < ringbuf_bytes_used rb → rb.tail + offset < WORD) →
      ringbuf_findchr_rec rb c fuel offset =
        .value (if offset ≥ ringbuf_bytes_used rb then ringbuf_bytes_used rb
                else offset + ((buffered rb).drop offset).indexOf (toByte c)) := by
  have hlt := bytes_used_lt_size rb h
  have hbl := buffered_length rb h
  have hwf := h
  obtain ⟨h1, h2, h3, h4⟩ := h
  intro fuel
  induction fuel with
  | zero =>
    intro offset hf _
    rw [ringbuf_findchr_rec]
    simp only [ge_iff_le, if_pos (show ringbuf_bytes_used rb ≤ offset by omega)]
  | succ fuel ih =>
    intro offset hf hno
    rw [ringbuf_findchr_rec]
    by_cases ho : ringbuf_bytes_used rb ≤ offset
    · simp only [ge_iff_le, if_pos ho]
    · have ho2 : offset < ringbuf_bytes_used rb := by omega
      have hw : wadd rb.tail offset = rb.tail + offset := by
        simp only [wadd]
        exact Nat.mod_eq_of_lt (hno ho2)
      have hW : WORD = 4294967296 := rfl
      have hm : (rb.tail + offset) % rb.size < rb.size := Nat.mod_lt _ (by omega)
      have hmod := mod_of_lt_two_mul (rb.tail + offset) rb.size (by omega)
      simp only [ge_iff_le, if_neg ho, hw, ringbuf_end, ringbuf_buffer_size, gt_iff_lt,
        hm, not_true_eq_false, if_false]
      have hn4 : LWIP_MIN (rb.size - (rb.tail + offset) % rb.size)
          (ringbuf_bytes_used rb - offset) = rb.size - (rb.tail + offset) % rb.size ∨
          LWIP_MIN (rb.size - (rb.tail + offset) % rb.size)
          (ringbuf_bytes_used rb - offset) = ringbuf_bytes_used rb - offset := by
        unfold LWIP_MIN
        split
        · exact Or.inl rfl
        · exact Or.inr rfl
      generalize hn : LWIP_MIN (rb.size - (rb.tail + offset) % rb.size)
        (ringbuf_bytes_used rb - offset) = n at hn4
      have hn1 : n ≤ rb.size - (rb.tail + offset) % rb.size := hn ▸ LWIP_MIN_le_left _ _
      have hn2 : n ≤ ringbuf_bytes_used rb - offset := hn ▸ LWIP_MIN_le_right _ _
      have hn3 : 0 < n := hn ▸ LWIP_MIN_pos _ _ (by omega) (by omega)
      have hnext : offset + n < ringbuf_bytes_used rb → rb.tail + (offset + n) < WORD := by
        intro hlt2
        split at hmod <;> omega
      have hseg := findchr_segment rb hwf offset n ho2 hn1 hn2
      have hX : ((buffered rb).drop offset).length = ringbuf_bytes_used rb - offset := by
        rw [List.length_drop, hbl]
      have hsl : (((buffered rb).drop offset).take n).length = n := by
        rw [List.length_take, hX]; omega
      have hsplit := List.take_append_drop n ((buffered rb).drop offset)
      rw [memchr_eq, hseg, hsl]
      by_cases hfound : (((buffered rb).drop offset).take n).indexOf (toByte c) < n
      · simp only [if_pos hfound]
        have hmem : toByte c ∈ ((buffered rb).drop offset).take n := by
          rw [← List.indexOf_lt_length, hsl]; exact hfound
        rw [← hsplit, List.indexOf_append_of_mem hmem, hsplit]
      · simp only [if_neg hfound]
        have hnmem : toByte c ∉ ((buffered rb).drop offset).take n := by
          rw [← List.indexOf_lt_length, hsl]; exact hfound
        rw [ih (offset + n) (by omega) hnext]
        congr 1
        conv_rhs => rw [← hsplit]
        rw [List.indexOf_append_of_not_mem hnmem, hsl, List.drop_drop]
        split
        · next hge =>
          have e : List.drop (offset + n) (buffered rb) = [] :=
            List.drop_of_length_le (by omega)
          rw [e]
          simp
          omega
        · omega

/-- The result of the search from an offset at which the 32-bit sum of line 196
wraps: one scan of the `bytes_used - offset` bytes at `tail + offset - 2^32`. -/
theorem findchr_rec_wrapped (rb : ringbuf_t) (c : Int) (h : WF rb) (fuel offset : Nat)
    (hf : ringbuf_bytes_used rb - offset ≤ fuel) (ho : offset < ringbuf_bytes_used rb)
    (hw : WORD ≤ rb.tail + offset) :
    ringbuf_findchr_rec rb c fuel offset =
      .value (match memchr rb.buf (rb.tail + offset - WORD) c
                (ringbuf_bytes_used rb - offset) with
              | some found => offset + found
              | none => ringbuf_bytes_used rb) := by
  obtain ⟨s1, _, s3⟩ := findchr_start rb h offset ho
  obtain ⟨_, s4, s5⟩ := s3 hw
  have hlt := bytes_used_lt_size rb h
  obtain ⟨h1, h2, h3, h4⟩ := h
  have hW : WORD = 4294967296 := rfl
  have hst : wadd rb.tail offset % rb.size = rb.tail + offset - WORD := by
    rw [s4, mod_of_lt_two_mul _ _ (by omega)]
    split <;> omega
  have hm : rb.tail + offset - WORD < rb.size := by omega
  have hn : LWIP_MIN (rb.size - (rb.tail + offset - WORD)) (ringbuf_bytes_used rb - offset)
      = ringbuf_bytes_used rb - offset := by
    rw [hst] at s5
    unfold LWIP_MIN
    split <;> omega
  cases fuel with
  | zero => omega
  | succ f =>
    rw [ringbuf_findchr_rec]
    simp only [ge_iff_le, if_neg (show ¬ ringbuf_bytes_used rb ≤ offset by omega), hst,
      ringbuf_end, ringbuf_buffer_size, gt_iff_lt, hm, not_true_eq_false, if_false, hn]
    generalize memchr rb.buf (rb.tail + offset - WORD) c (ringbuf_bytes_used rb - offset) = m
    cases m with
    | some found => rfl
    | none =>
      simp only
      rw [ringbuf_findchr_rec]
      simp only [ge_iff_le, if_pos (show ringbuf_bytes_used rb ≤
        offset + (ringbuf_bytes_used rb - offset) by omega)]

/-- The bytes scanned from an offset at which the sum wraps are buffered bytes, those
from the index `offset - (2^32 - size)` on. -/
theorem findchr_wrapped_segment (rb : ringbuf_t) (h : WF rb) (offset : Nat)
    (ho : offset < ringbuf_bytes_used rb) (hw : WORD ≤ rb.tail + offset) :
    memRead rb.buf (rb.tail + offset - WORD) (ringbuf_bytes_used rb - offset) =
      ((buffered rb).drop (offset - (WORD - rb.size))).take (ringbuf_bytes_used rb - offset) := by
  obtain ⟨s1, _, s3⟩ := findchr_start rb h offset ho
  obtain ⟨s6, s4, s5⟩ := s3 hw
  have hlt := bytes_used_lt_size rb h
  have hW : WORD = 4294967296 := rfl
  have h2 : rb.size < WORD := h.2.1
  have h4 : rb.tail < rb.size := h.2.2.2
  have hst : (rb.tail + (offset - (WORD - rb.size))) % rb.size = rb.tail + offset - WORD := by
    rw [mod_of_lt_two_mul _ _ (by omega)]
    split <;> omega
  rw [s4, hst] at s5
  have hseg := findchr_segment rb h (offset - (WORD - rb.size))
    (ringbuf_bytes_used rb - offset) (by omega) (by rw [hst]; omega) (by omega)
  rw [hst] at hseg
  exact hseg

/-- The search ends with a value on every well-formed buffer. -/
theorem findchr_value (rb : ringbuf_t) (c : Int) (k : Nat) (h : WF rb) :
    ∃ r : Nat, ringbuf_findchr rb c k = .value r := by
  by_cases hw : k < ringbuf_bytes_used rb ∧ WORD ≤ rb.tail + k
  · exact ⟨_, findchr_rec_wrapped rb c h _ k (by omega) hw.1 hw.2⟩
  · exact ⟨_, findchr_rec_spec rb c h _ k (by omega) (fun hk => by omega)⟩

/-- The result of the search depends on the cursors, the size and the buffered bytes
only. -/
theorem findchr_congr (rb other : ringbuf_t) (c : Int) (k : Nat) (hwf : WF rb)
    (hwfo : WF other) (e1 : other.size = rb.size) (e2 : other.head = rb.head)
    (e3 : other.tail = rb.tail) (e4 : buffered other = buffered rb) :
    ringbuf_findchr other c k = ringbuf_findchr rb c k := by
  have hu : ringbuf_bytes_used other = ringbuf_bytes_used rb := by
    rw [bytes_used_eq other hwfo, bytes_used_eq rb hwf, e1, e2, e3]
  unfold ringbuf_findchr
  by_cases hw : k < ringbuf_bytes_used rb ∧ WORD ≤ rb.tail + k
  · have m : memchr other.buf (other.tail + k - WORD) c (ringbuf_bytes_used other - k)
        = memchr rb.buf (rb.tail + k - WORD) c (ringbuf_bytes_used rb - k) := by
      rw [memchr_eq, memchr_eq,
        findchr_wrapped_segment other hwfo k (by rw [hu]; exact hw.1) (by rw [e3]; exact hw.2),
        findchr_wrapped_segment rb hwf k hw.1 hw.2, hu, e1, e4]
    rw [findchr_rec_wrapped other c hwfo _ k (by omega) (by rw [hu]; exact hw.1)
        (by rw [e3]; exact hw.2),
      findchr_rec_wrapped rb c hwf _ k (by omega) hw.1 hw.2, m, hu]
  · rw [findchr_rec_spec other c hwfo _ k (by omega) (fun hk => by rw [hu, e3] at *; omega),
      findchr_rec_spec rb c hwf _ k (by omega) (fun hk => by omega), hu, e4]

theorem toByte_natCast (v : Nat) (hv : v < 256) : toByte (v : Int) = v := by
  simp only [toByte]
  omega

/-- The index `indexOf` returns is the first one holding the value. -/
theorem indexOf_first (v : Nat) (X : List Nat) :
    X.indexOf v ≤ X.length ∧
    (X.indexOf v < X.length → X[X.indexOf v]? = some v) ∧
    (∀ j, j < X.indexOf v → X[j]? ≠ some v) := by
  refine ⟨List.indexOf_le_length, ?_, ?_⟩
  · intro h
    rw [List.getElem?_eq_getElem h, List.getElem_indexOf h]
  · intro j hj hv
    have hle : X.indexOf v ≤ X.length := List.indexOf_le_length
    have hjl : j < (X.take (X.indexOf v)).length := by
      rw [List.length_take]; omega
    have hmem : v ∈ X.take (X.indexOf v) := by
      have e : (X.take (X.indexOf v))[j]? = some v := by
        rw [List.getElem?_take_of_lt hj]; exact hv
      exact List.getElem?_mem e
    have h1 : (X.take (X.indexOf v) ++ X.drop (X.indexOf v)).indexOf v
        = (X.take (X.indexOf v)).indexOf v := List.indexOf_append_of_mem hmem
    rw [List.take_append_drop] at h1
    have h2 : (X.take (X.indexOf v)).indexOf v < (X.take (X.indexOf v)).length :=
      List.indexOf_lt_length.mpr hmem
    rw [List.length_take] at h2
    omega

/-- C8, amended. `ringbuf_findchr` is a first-occurrence search over the buffered bytes
`B` (wrapped or not) whenever the 32-bit sum of the read cursor's offset and the
offset asked does not wrap: on a well-formed buffer, for every byte value `v` and
every offset `k` with `k >= bytes_used` or `tail + k < 2^32` (every offset, when the
storage has at most `2^31` bytes), it returns, without a failed assertion, the least
index `i` with `k <= i < len B` and `B[i] = v` when there is one and `len B`, which is
`bytes_used`, otherwise; so `len B` whenever `k >= len B`, and for `k = 0` the index
of the first occurrence of `v` in `B`, or `len B`. -/
theorem C8_findchr_first_occurrence (rb : ringbuf_t) (v k : Nat) (hwf : WF rb) (hv : v < 256)
    (hk : k < ringbuf_bytes_used rb → rb.tail + k < WORD) :
    ∃ r : Nat,
      ringbuf_findchr rb (v : Int) k = .value r ∧
      (buffered rb).length = ringbuf_bytes_used rb ∧
      r ≤ (buffered rb).length ∧
      (r < (buffered rb).length → k ≤ r ∧ (buffered rb)[r]? = some v) ∧
      (∀ i, k ≤ i → i < r → (buffered rb)[i]? ≠ some v) ∧
      (∀ i, k ≤ i → (buffered rb)[i]? = some v → r ≤ i ∧ r < (buffered rb).length) ∧
      ((∀ i, k ≤ i → (buffered rb)[i]? ≠ some v) → r = (buffered rb).length) ∧
      ((buffered rb).length ≤ k → r = (buffered rb).length) ∧
      (k = 0 → r = (buffered rb).indexOf v) := by
  have hbl := buffered_length rb hwf
  have hspec := findchr_rec_spec rb (v : Int) hwf (ringbuf_bytes_used rb) k (by omega) hk
  rw [toByte_natCast v hv] at hspec
  obtain ⟨f1, f2, f3⟩ := indexOf_first v ((buffered rb).drop k)
  rw [List.length_drop] at f1 f2
  have key : ∀ r, r = (if k ≥ ringbuf_bytes_used rb then ringbuf_bytes_used rb
      else k + ((buffered rb).drop k).indexOf v) →
      r ≤ (buffered rb).length ∧
      (r < (buffered rb).length → k ≤ r ∧ (buffered rb)[r]? = some v) ∧
      (∀ i, k ≤ i → i < r → (buffered rb)[i]? ≠ some v) := by
    intro r hr
    by_cases hk : k ≥ ringbuf_bytes_used rb
    · rw [if_pos hk] at hr
      refine ⟨by omega, fun h => by omega, ?_⟩
      intro i hki hir
      rw [List.getElem?_eq_none (by omega)]
      simp
    · rw [if_neg hk] at hr
      refine ⟨by omega, ?_, ?_⟩
      · intro h
        have h2 := f2 (by omega)
        rw [List.getElem?_drop] at h2
        exact ⟨by omega, by rw [hr]; exact h2⟩
      · intro i hki hir
        have h3 := f3 (i - k) (by omega)
        rw [List.getElem?_drop] at h3
        have e : k + (i - k) = i := by omega
        rw [e] at h3
        exact h3
  obtain ⟨k1, k2, k3⟩ := key _ rfl
  refine ⟨_, hspec, hbl, k1, k2, k3, ?_, ?_, ?_, ?_⟩
  · intro i hki hi
    have hil : i < (buffered rb).length := by
      by_contra hc
      rw [List.getElem?_eq_none (by omega)] at hi
      simp at hi
    have hle : ¬ i < _ := fun hlt => k3 i hki hlt hi
    exact ⟨by omega, by omega⟩
  · intro hall
    by_contra hne
    exact hall _ (k2 (by omega)).1 (k2 (by omega)).2
  · intro hk
    rw [if_pos (by omega)]
    exact hbl.symm
  · intro hk
    subst hk
    rw [List.drop_zero]
    by_cases h0 : 0 ≥ ringbuf_bytes_used rb
    · rw [if_pos h0]
      have hnil : buffered rb = [] := List.eq_nil_of_length_eq_zero (by omega)
      rw [hnil]
      simp
      omega
    · rw [if_neg h0, Nat.zero_add]

/-- Witness of C8: the byte 67 sits at index 2 of the bytes buffered across the end of
the storage. -/
theorem C8_findchr_first_occurrence_witness :
    WF sampleWrapped ∧ 67 < 256 ∧
    (1 < ringbuf_bytes_used sampleWrapped → sampleWrapped.tail + 1 < WORD) ∧
    ringbuf_findchr sampleWrapped ((67 : Nat) : Int) 1 = .value 2 ∧
    ∃ r : Nat,
      ringbuf_findchr sampleWrapped ((67 : Nat) : Int) 1 = .value r ∧
      (buffered sampleWrapped).length = ringbuf_bytes_used sampleWrapped ∧
      r ≤ (buffered sampleWrapped).length ∧
      (r < (buffered sampleWrapped).length → 1 ≤ r ∧ (buffered sampleWrapped)[r]? = some 67) ∧
      (∀ i, 1 ≤ i → i < r → (buffered sampleWrapped)[i]? ≠ some 67) ∧
      (∀ i, 1 ≤ i → (buffered sampleWrapped)[i]? = some 67 →
        r ≤ i ∧ r < (buffered sampleWrapped).length) ∧
      ((∀ i, 1 ≤ i → (buffered sampleWrapped)[i]? ≠ some 67) →
        r = (buffered sampleWrapped).length) ∧
      ((buffered sampleWrapped).length ≤ 1 → r = (buffered sampleWrapped).length) ∧
      (1 = 0 → r = (buffered sampleWrapped).indexOf 67) :=
  ⟨by decide, by decide, by decide, by decide,
    C8_findchr_first_occurrence sampleWrapped 67 1 (by decide) (by decide) (by decide)⟩

/-- A scan of a storage whose first byte is the one sought finds it at once. -/
theorem memchr_cons_self (v : Nat) (l : List Nat) (c : Int) (n : Nat) (hc : toByte c = v) :
    memchr (v :: l) 0 c (n + 1) = some 0 := by
  rw [memchr_eq, hc]
  simp only [memRead, List.drop_zero, List.take_succ_cons, List.indexOf_cons_self,
    List.length_cons, Nat.zero_lt_succ, if_true]

theorem memRead_cons_replicate (v w N p : Nat) (hp : p < N) :
    memRead (v :: List.replicate N w) (p + 1) 1 = [w] := by
  have e : min 1 (N - p) = 1 := by omega
  simp only [memRead, List.drop_succ_cons, List.drop_replicate, List.take_replicate, e,
    List.replicate_one]

theorem getElem?_of_drop_take (l : List Nat) (k x : Nat) (h : (l.drop k).take 1 = [x]) :
    l[k]? = some x := by
  have h0 : ((l.drop k).take 1)[0]? = some x := by rw [h]; rfl
  rw [List.getElem?_take_of_lt (by decide), List.getElem?_drop, Nat.add_zero] at h0
  exact h0

theorem sampleHuge_WF : WF sampleHuge := by
  refine ⟨?_, by decide, by decide, by decide⟩
  have eb : sampleHuge.buf = 1 :: List.replicate 3221225471 0 := rfl
  have es : sampleHuge.size = 3221225472 := rfl
  rw [eb, es, List.length_cons, List.length_replicate]

theorem sampleHuge_used : ringbuf_bytes_used sampleHuge = 3221225471 := by decide

/-- On `sampleHuge` the search for the byte 1 from the offset 2147483649 scans from the
start of the storage, since `2147483647 + 2147483649` is `2^32`, and finds the first
byte of the storage. -/
theorem sampleHuge_findchr :
    ringbuf_findchr sampleHuge ((1 : Nat) : Int) 2147483649 = .value 2147483649 := by
  have u1 : 2147483649 < ringbuf_bytes_used sampleHuge := by rw [sampleHuge_used]; decide
  have u2 : WORD ≤ sampleHuge.tail + 2147483649 := by decide
  have u3 : sampleHuge.tail + 2147483649 - WORD = 0 := by decide
  have u4 : ringbuf_bytes_used sampleHuge - 2147483649 = 1073741821 + 1 := by
    rw [sampleHuge_used]
  have u5 : sampleHuge.buf = 1 :: List.replicate 3221225471 0 := rfl
  have u6 : memchr sampleHuge.buf (sampleHuge.tail + 2147483649 - WORD) ((1 : Nat) : Int)
      (ringbuf_bytes_used sampleHuge - 2147483649) = some 0 := by
    rw [u3, u4, u5]
    exact memchr_cons_self 1 _ _ _ (toByte_natCast 1 (by decide))
  unfold ringbuf_findchr
  rw [findchr_rec_wrapped sampleHuge _ sampleHuge_WF _ 2147483649 (by omega) u1 u2, u6]

/-- The buffered byte of index 2147483649 of `sampleHuge` is the byte 1073741824 of the
storage, a zero. -/
theorem sampleHuge_buffered :
    (buffered sampleHuge)[2147483649]? = some 0 := by
  have u1 : 2147483649 < ringbuf_bytes_used sampleHuge := by rw [sampleHuge_used]; decide
  have u3 : (sampleHuge.tail + 2147483649) % sampleHuge.size = 1073741823 + 1 := by decide
  have u5 : sampleHuge.buf = 1 :: List.replicate 3221225471 0 := rfl
  have hseg := findchr_segment sampleHuge sampleHuge_WF 2147483649 1 u1
    (by rw [u3]; decide) (by omega)
  rw [u3, u5, memRead_cons_replicate 1 0 3221225471 1073741823 (by decide)] at hseg
  exact getElem?_of_drop_take _ _ _ hseg.symm

/-- Counterexample to C8 as stated: `sampleHuge` is well formed and holds 3221225471
bytes; the search for the byte 1 from the offset 2147483649 returns 2147483649, an
index below `bytes_used` at which the buffered byte is 0. The sum of line 196,
`2147483647 + 2147483649`, is `2^32` and wraps to 0, so the scan starts at the first
byte of the storage, which is the buffered byte of index 1073741825. -/
theorem C8_counterexample :
    WF sampleHuge ∧ (1 : Nat) < 256 ∧
    (buffered sampleHuge).length = 3221225471 ∧
    ringbuf_findchr sampleHuge ((1 : Nat) : Int) 2147483649 = .value 2147483649 ∧
    (buffered sampleHuge)[2147483649]? = some 0 ∧
    ¬ ∃ r : Nat,
      ringbuf_findchr sampleHuge ((1 : Nat) : Int) 2147483649 = .value r ∧
      (r < (buffered sampleHuge).length →
        2147483649 ≤ r ∧ (buffered sampleHuge)[r]? = some 1) := by
  have hl : (buffered sampleHuge).length = 3221225471 := by
    rw [buffered_length sampleHuge sampleHuge_WF, sampleHuge_used]
  refine ⟨sampleHuge_WF, by decide, hl, sampleHuge_findchr, sampleHuge_buffered, ?_⟩
  rintro ⟨r, hr, h⟩
  rw [sampleHuge_findchr] at hr
  have hrk : 2147483649 = r := Ret.value.inj hr
  subst hrk
  have h1 := (h (by rw [hl]; decide)).2
  rw [sampleHuge_buffered] at h1
  exact absurd (Option.some.inj h1) (by decide)

/-! ## The fill -/

theorem memRead_replicate (count nw n b : Nat) (h : nw + n ≤ count) :
    memRead (List.replicate count b) nw n = List.replicate n b := by
  simp only [memRead, List.drop_replicate, List.take_replicate]
  congr 1
  omega

/-- The fill loop is the write loop on a source of `count` copies of the byte. -/
theorem memset_loop_eq (c : Int) (count bufend : Nat) :
    ∀ (fuel : Nat) (dst : ringbuf_t) (nw : Nat), nw ≤ count →
      ringbuf_memset_loop c count bufend fuel dst nw =
        ringbuf_memcpy_into_loop (List.replicate count (toByte c)) count bufend fuel dst nw := by
  intro fuel
  induction fuel with
  | zero =>
    intro dst nw _
    simp only [ringbuf_memset_loop, ringbuf_memcpy_into_loop]
  | succ fuel ih =>
    intro dst nw hle
    rw [ringbuf_memset_loop, ringbuf_memcpy_into_loop]
    by_cases e : nw = count
    · simp only [if_pos e]
    · simp only [if_neg e]
      by_cases hlt : bufend > dst.head
      · simp only [hlt, not_true_eq_false, if_false]
        have hn2 := LWIP_MIN_le_right (bufend - dst.head) (count - nw)
        rw [os_memset, memRead_replicate count nw _ (toByte c) (by omega)]
        exact ih _ _ (by omega)
      · simp only [hlt, not_false_eq_true, if_true]

/-- What `ringbuf_memset` does on a well-formed buffer: no assertion fails, it returns
the capped length and leaves the buffer `ringbuf_memcpy_into` leaves for that many
copies of the byte. -/
theorem memset_eq_memcpy_into (dst : ringbuf_t) (c : Int) (len : Nat) (h : WF dst) :
    ∃ d : ringbuf_t,
      ringbuf_memset dst c len = (d, .value (LWIP_MIN len dst.size)) ∧
      ringbuf_memcpy_into dst (List.replicate (LWIP_MIN len dst.size) (toByte c))
        (LWIP_MIN len dst.size) = (d, .value d.head) := by
  obtain ⟨h1, h2, h3, h4⟩ := h
  generalize hn : LWIP_MIN len dst.size = n
  obtain ⟨⟨dbuf, dhead, dtail, dsize⟩, hd, e1, e2, e3, e4, _, _⟩ :=
    memcpy_into_loop_spec (List.replicate n (toByte c)) n (by rw [List.length_replicate]) n dst 0
      h1 h3 (Nat.zero_le _) (by omega)
  simp only at e1 e2 e3 e4
  subst e1 e2
  unfold ringbuf_memset ringbuf_memcpy_into
  simp only [ringbuf_end, ringbuf_buffer_size, hn, memset_loop_eq _ _ _ _ _ _ (Nat.zero_le _), hd]
  by_cases hov : n > ringbuf_bytes_free dst
  · have hnext : ringbuf_nextp { buf := dbuf, head := dhead, tail := dst.tail, size := dst.size }
        dhead = some ((dhead + 1) % dst.size) := by
      simp [ringbuf_nextp, ringbuf_end, ringbuf_buffer_size, e4]
    obtain ⟨_, hfull⟩ := is_full_after_nextp dbuf dhead dst.tail dst.size ⟨e3, h2, e4, h4⟩
    simp only [hov, decide_True, if_true, hnext, hfull]
    exact ⟨_, rfl, rfl⟩
  · simp only [hov, decide_False, Bool.false_eq_true, if_false]
    exact ⟨_, rfl, rfl⟩
/-! ## The storage after a write of at most `size` bytes -/

/-- Reading a storage through its circular reading from a cursor. -/
theorem getElem?_of_rotate (buf : List Nat) (p k : Nat) (hk : k < buf.length) :
    buf[(k + p) % buf.length]? = (buf.rotate p)[k]? :=
  (List.getElem?_rotate hk).symm

theorem circular_index (size head j : Nat) (hh : head < size) (hj : j < size) :
    (j + size - head) % size < size ∧ (head + (j + size - head) % size) % size = j := by
  have h1 := mod_of_lt_two_mul (j + size - head) size (by omega)
  refine ⟨Nat.mod_lt _ (by omega), ?_⟩
  rw [h1]
  split
  · next h =>
    have e : head + (j + size - head) = j + size := by omega
    rw [e, Nat.add_mod_right, Nat.mod_eq_of_lt hj]
  · next h =>
    have e : head + (j + size - head - size) = j := by omega
    rw [e, Nat.mod_eq_of_lt hj]

/-- The storage after writing `count <= size` bytes `S` from the cursor `head`: the
positions `head, head + 1, ...` taken circularly hold the bytes of `S` in order and
every other position is unchanged. -/
theorem storage_after_write (buf nbuf S : List Nat) (head nhead count : Nat)
    (hlen : nbuf.length = buf.length) (hh : head < buf.length)
    (hc : count ≤ buf.length) (hnh : nhead = (head + count) % buf.length)
    (hrot : nbuf.rotate nhead = (buf.rotate head ++ S).drop count) :
    (∀ i, i < count → nbuf[(head + i) % buf.length]? = S[i]?) ∧
    (∀ j, j < buf.length → (∀ i, i < count → (head + i) % buf.length ≠ j) →
      nbuf[j]? = buf[j]?) := by
  have hV : (buf.rotate head).length = buf.length := List.length_rotate _ _
  have key : ∀ k, k < buf.length →
      nbuf[(k + (head + count)) % buf.length]? = (buf.rotate head ++ S)[count + k]? := by
    intro k hk
    have h1 := getElem?_of_rotate nbuf nhead k (by omega)
    rw [hrot, hlen, hnh, Nat.add_mod_mod, List.getElem?_drop] at h1
    exact h1
  constructor
  · intro i hi
    have h1 := key (buf.length - count + i) (by omega)
    have e1 : buf.length - count + i + (head + count) = head + i + buf.length := by omega
    have e2 : count + (buf.length - count + i) = buf.length + i := by omega
    rw [e1, Nat.add_mod_right, e2, List.getElem?_append_right (by omega), hV,
      Nat.add_sub_cancel_left] at h1
    exact h1
  · intro j hj hall
    obtain ⟨g1, g2⟩ := circular_index buf.length head j hh hj
    generalize (j + buf.length - head) % buf.length = i0 at g1 g2
    have hi0 : count ≤ i0 := by
      by_contra hlt
      exact hall i0 (by omega) g2
    have h1 := key (i0 - count) (by omega)
    have e1 : i0 - count + (head + count) = head + i0 := by omega
    have e2 : count + (i0 - count) = i0 := by omega
    rw [e1, g2, e2, List.getElem?_append_left (by omega), List.getElem?_rotate g1,
      Nat.add_comm i0 head, g2] at h1
    exact h1
theorem LWIP_MIN_eq_min (x y : Nat) : LWIP_MIN x y = min x y := by
  unfold LWIP_MIN
  split <;> omega

theorem toByte_of_byte (c : Int) (h0 : 0 ≤ c) (h1 : c < 256) : (toByte c : Int) = c := by
  simp only [toByte]
  omega

/-- C9. On a well-formed buffer, for every value and every length, `ringbuf_memset`
returns `n = min(length, size)`, where `size = capacity + 1`, and has written exactly
`n` copies of the value (as the byte `memset` stores, which is the value itself for a
value in `0..255`): the `n` positions from the old write cursor, taken circularly,
hold it, every other position of the storage is unchanged, and the write cursor is
`(old write cursor + n) mod size`. When `n <= bytes_free` the read cursor is
unchanged and the buffered bytes are the old ones followed by `n` copies. -/
theorem C9_memset (rb : ringbuf_t) (c : Int) (len : Nat) (hwf : WF rb) :
    ∃ d : ringbuf_t,
      ringbuf_memset rb c len = (d, .value (min len rb.size)) ∧
      rb.size = ringbuf_capacity rb + 1 ∧
      d.size = rb.size ∧ d.buf.length = rb.buf.length ∧
      (∀ i, i < min len rb.size → d.buf[(rb.head + i) % rb.size]? = some (toByte c)) ∧
      (∀ j, j < rb.size → (∀ i, i < min len rb.size → (rb.head + i) % rb.size ≠ j) →
        d.buf[j]? = rb.buf[j]?) ∧
      d.head = (rb.head + min len rb.size) % rb.size ∧
      (min len rb.size ≤ ringbuf_bytes_free rb →
        d.tail = rb.tail ∧
        buffered d = buffered rb ++ List.replicate (min len rb.size) (toByte c)) ∧
      (0 ≤ c → c < 256 → (toByte c : Int) = c) := by
  have hcap := capacity_eq rb hwf
  have hsum := bytes_used_add_free rb hwf
  have hl := buffered_length rb hwf
  obtain ⟨d, hset, hcpy⟩ := memset_eq_memcpy_into rb c len hwf
  rw [LWIP_MIN_eq_min] at hset hcpy
  generalize hn : min len rb.size = n at hset hcpy ⊢
  have hnle : n ≤ rb.size := by omega
  obtain ⟨d2, hd2, hwfd, e1, e2, e3, e4⟩ :=
    memcpy_into_spec rb (List.replicate n (toByte c)) n hwf (by rw [List.length_replicate])
  rw [hcpy] at hd2
  have hdd : d2 = d := (Prod.mk.inj hd2).1.symm
  subst hdd
  have hres := memcpy_into_result rb (List.replicate n (toByte c)) hwf
  rw [List.length_replicate, hcpy] at hres
  obtain ⟨d3, hd3, _, _, _, f4, _, f6⟩ := hres
  have hdd : d3 = d2 := (Prod.mk.inj hd3).1.symm
  subst hdd
  have hrep : List.take n (List.replicate n (toByte c)) = List.replicate n (toByte c) := by
    rw [List.take_replicate, Nat.min_self]
  rw [hrep] at e3
  obtain ⟨h1, h2, h3, h4⟩ := hwf
  have hdl : d3.buf.length = rb.buf.length := by
    rw [hwfd.1, e1, h1]
  obtain ⟨s1, s2⟩ := storage_after_write rb.buf d3.buf (List.replicate n (toByte c)) rb.head
    d3.head n hdl (by omega) (by omega) (by rw [h1]; exact e2) e3
  rw [h1] at s1 s2
  refine ⟨d3, hset, by omega, e1, hdl, ?_, s2, e2, ?_, toByte_of_byte c⟩
  · intro i hi
    rw [s1 i hi, List.getElem?_replicate, if_pos hi]
  · intro hfree
    rw [if_neg (by omega)] at f4
    refine ⟨f4, ?_⟩
    rw [f6, lastN_of_length_le _ _ (by rw [List.length_append, hl, List.length_replicate]; omega)]

/-- Witness of C9: nine copies asked of a buffer of size 5, five written. -/
theorem C9_memset_witness :
    WF samplePartial ∧ (ringbuf_memset samplePartial 7 9).2 = .value 5 ∧
    ∃ d : ringbuf_t,
      ringbuf_memset samplePartial 7 9 = (d, .value (min 9 samplePartial.size)) ∧
      samplePartial.size = ringbuf_capacity samplePartial + 1 ∧
      d.size = samplePartial.size ∧ d.buf.length = samplePartial.buf.length ∧
      (∀ i, i < min 9 samplePartial.size →
        d.buf[(samplePartial.head + i) % samplePartial.size]? = some (toByte 7)) ∧
      (∀ j, j < samplePartial.size →
        (∀ i, i < min 9 samplePartial.size →
          (samplePartial.head + i) % samplePartial.size ≠ j) →
        d.buf[j]? = samplePartial.buf[j]?) ∧
      d.head = (samplePartial.head + min 9 samplePartial.size) % samplePartial.size ∧
      (min 9 samplePartial.size ≤ ringbuf_bytes_free samplePartial →
        d.tail = samplePartial.tail ∧
        buffered d = buffered samplePartial
          ++ List.replicate (min 9 samplePartial.size) (toByte 7)) ∧
      ((0 : Int) ≤ 7 → (7 : Int) < 256 → (toByte 7 : Int) = 7) :=
  ⟨by decide, by decide, C9_memset samplePartial 7 9 (by decide)⟩
/-- C10. Overflowing writes leave the buffer full: on a well-formed buffer, after
`ringbuf_memset` with `length > bytes_free` or `ringbuf_memcpy_into` with
`count > bytes_free`, the read cursor is `(new write cursor + 1) mod size`,
`ringbuf_is_full` holds and `bytes_used` is the capacity; with a length or count
`<= bytes_free` the read cursor is not moved. -/
theorem C10_overflow_leaves_full (rb : ringbuf_t) (hwf : WF rb) :
    (∀ (c : Int) (len : Nat), len > ringbuf_bytes_free rb →
      ∃ (d : ringbuf_t) (n : Nat), ringbuf_memset rb c len = (d, .value n) ∧
        d.tail = (d.head + 1) % d.size ∧ ringbuf_is_full d = true ∧
        ringbuf_bytes_used d = ringbuf_capacity d ∧ ringbuf_capacity d = ringbuf_capacity rb) ∧
    (∀ (B : List Nat), B.length > ringbuf_bytes_free rb →
      ∃ d : ringbuf_t, ringbuf_memcpy_into rb B B.length = (d, .value d.head) ∧
        d.tail = (d.head + 1) % d.size ∧ ringbuf_is_full d = true ∧
        ringbuf_bytes_used d = ringbuf_capacity d ∧ ringbuf_capacity d = ringbuf_capacity rb) ∧
    (∀ (c : Int) (len : Nat), len ≤ ringbuf_bytes_free rb →
      ∃ (d : ringbuf_t) (n : Nat), ringbuf_memset rb c len = (d, .value n) ∧ d.tail = rb.tail) ∧
    (∀ (B : List Nat), B.length ≤ ringbuf_bytes_free rb →
      ∃ d : ringbuf_t, ringbuf_memcpy_into rb B B.length = (d, .value d.head) ∧
        d.tail = rb.tail) := by
  have hcap := capacity_eq rb hwf
  have hsum := bytes_used_add_free rb hwf
  have hsz : 0 < rb.size := by
    obtain ⟨_, _, h3, _⟩ := hwf
    omega
  have into_over : ∀ (B : List Nat), B.length > ringbuf_bytes_free rb →
      ∃ d : ringbuf_t, ringbuf_memcpy_into rb B B.length = (d, .value d.head) ∧
        d.tail = (d.head + 1) % d.size ∧ ringbuf_is_full d = true ∧
        ringbuf_bytes_used d = ringbuf_capacity d ∧
        ringbuf_capacity d = ringbuf_capacity rb := by
    intro B hB
    obtain ⟨d, hd, hwfd, e1, _, e4, e5, _⟩ := memcpy_into_result rb B hwf
    rw [if_pos hB] at e4 e5
    have hcd := capacity_eq d hwfd
    refine ⟨d, hd, by rw [e4, e1], ?_, by rw [hcd, e5, e1], by rw [hcd, hcap, e1]⟩
    rw [is_full_iff_used_capacity d hwfd, hcd, e5, e1]
  have into_under : ∀ (B : List Nat), B.length ≤ ringbuf_bytes_free rb →
      ∃ d : ringbuf_t, ringbuf_memcpy_into rb B B.length = (d, .value d.head) ∧
        d.tail = rb.tail := by
    intro B hB
    obtain ⟨d, hd, _, _, _, e4, _, _⟩ := memcpy_into_result rb B hwf
    rw [if_neg (by omega)] at e4
    exact ⟨d, hd, e4⟩
  refine ⟨?_, into_over, ?_, into_under⟩
  · intro c len hlen
    obtain ⟨d, hset, hcpy⟩ := memset_eq_memcpy_into rb c len hwf
    have hn : (List.replicate (LWIP_MIN len rb.size) (toByte c)).length > ringbuf_bytes_free rb := by
      rw [List.length_replicate, LWIP_MIN_eq_min]
      omega
    obtain ⟨d2, hd2, g⟩ := into_over _ hn
    rw [List.length_replicate, hcpy] at hd2
    have hdd : d2 = d := (Prod.mk.inj hd2).1.symm
    subst hdd
    exact ⟨d2, _, hset, g⟩
  · intro c len hlen
    obtain ⟨d, hset, hcpy⟩ := memset_eq_memcpy_into rb c len hwf
    have hn : (List.replicate (LWIP_MIN len rb.size) (toByte c)).length ≤ ringbuf_bytes_free rb := by
      rw [List.length_replicate, LWIP_MIN_eq_min]
      omega
    obtain ⟨d2, hd2, g⟩ := into_under _ hn
    rw [List.length_replicate, hcpy] at hd2
    have hdd : d2 = d := (Prod.mk.inj hd2).1.symm
    subst hdd
    exact ⟨d2, _, hset, g⟩

/-- Witness of C10: a fill of three and a copy of three into a buffer with two bytes
free. -/
theorem C10_overflow_leaves_full_witness :
    WF samplePartial ∧ 3 > ringbuf_bytes_free samplePartial ∧
    [1, 2, 3].length > ringbuf_bytes_free samplePartial ∧
    (∃ (d : ringbuf_t) (n : Nat), ringbuf_memset samplePartial 7 3 = (d, .value n) ∧
        d.tail = (d.head + 1) % d.size ∧ ringbuf_is_full d = true ∧
        ringbuf_bytes_used d = ringbuf_capacity d ∧
        ringbuf_capacity d = ringbuf_capacity samplePartial) ∧
    (∃ d : ringbuf_t, ringbuf_memcpy_into samplePartial [1, 2, 3] [1, 2, 3].length
          = (d, .value d.head) ∧
        d.tail = (d.head + 1) % d.size ∧ ringbuf_is_full d = true ∧
        ringbuf_bytes_used d = ringbuf_capacity d ∧
        ringbuf_capacity d = ringbuf_capacity samplePartial) :=
  ⟨by decide, by decide, by decide,
    (C10_overflow_leaves_full samplePartial (by decide)).1 7 3 (by decide),
    (C10_overflow_leaves_full samplePartial (by decide)).2.1 [1, 2, 3] (by decide)⟩
/-! ## The fuel is never exhausted

Each iteration that does not stop at an assertion consumes at least one byte, so the
fuel the callers pass suffices from every state, well-formed or not. -/

theorem memcpy_into_loop_no_timeout (src : List Nat) (count bufend : Nat) :
    ∀ (fuel : Nat) (dst : ringbuf_t) (nread : Nat), count - nread ≤ fuel → nread ≤ count →
      ringbuf_memcpy_into_loop src count bufend fuel dst nread ≠ .timeout := by
  intro fuel
  induction fuel with
  | zero =>
    intro dst nread hf hle
    have e : nread = count := by omega
    subst e
    rw [memcpy_into_loop_done]
    simp
  | succ fuel ih =>
    intro dst nread hf hle
    by_cases e : nread = count
    · subst e
      rw [memcpy_into_loop_done]
      simp
    · by_cases hlt : dst.head < bufend
      · rw [memcpy_into_loop_step src count bufend fuel dst nread e hlt]
        have h1 := LWIP_MIN_pos (bufend - dst.head) (count - nread) (by omega) (by omega)
        have h2 := LWIP_MIN_le_right (bufend - dst.head) (count - nread)
        exact ih _ _ (by omega) (by omega)
      · rw [ringbuf_memcpy_into_loop]
        simp [e, hlt]

theorem memcpy_from_loop_no_timeout (count bufend : Nat) :
    ∀ (fuel : Nat) (dst : List Nat) (src : ringbuf_t) (nw : Nat), count - nw ≤ fuel →
      nw ≤ count → ringbuf_memcpy_from_loop count bufend fuel dst src nw ≠ .timeout := by
  intro fuel
  induction fuel with
  | zero =>
    intro dst src nw hf hle
    have e : nw = count := by omega
    subst e
    rw [memcpy_from_loop_done]
    simp
  | succ fuel ih =>
    intro dst src nw hf hle
    by_cases e : nw = count
    · subst e
      rw [memcpy_from_loop_done]
      simp
    · by_cases hlt : src.tail < bufend
      · rw [memcpy_from_loop_step count bufend fuel dst src nw e hlt]
        have h1 := LWIP_MIN_pos (bufend - src.tail) (count - nw) (by omega) (by omega)
        have h2 := LWIP_MIN_le_right (bufend - src.tail) (count - nw)
        exact ih _ _ _ (by omega) (by omega)
      · rw [ringbuf_memcpy_from_loop]
        simp [e, hlt]

theorem memset_loop_no_timeout (c : Int) (count bufend : Nat) (dst : ringbuf_t) :
    ringbuf_memset_loop c count bufend count dst 0 ≠ .timeout := by
  rw [memset_loop_eq c count bufend count dst 0 (Nat.zero_le _)]
  exact memcpy_into_loop_no_timeout _ count bufend count dst 0 (by omega) (Nat.zero_le _)

theorem findchr_rec_no_timeout (rb : ringbuf_t) (c : Int) :
    ∀ (fuel offset : Nat), ringbuf_bytes_used rb - offset ≤ fuel →
      ringbuf_findchr_rec rb c fuel offset ≠ .timeout := by
  intro fuel
  induction fuel with
  | zero =>
    intro offset hf
    rw [ringbuf_findchr_rec]
    simp only [ge_iff_le, if_pos (show ringbuf_bytes_used rb ≤ offset by omega)]
    simp
  | succ fuel ih =>
    intro offset hf
    rw [ringbuf_findchr_rec]
    by_cases ho : ringbuf_bytes_used rb ≤ offset
    · simp [ho]
    · simp only [ge_iff_le, if_neg ho]
      split
      · simp
      · next hlt =>
        split
        · simp
        · simp only [gt_iff_lt, not_not] at hlt
          have h1 := LWIP_MIN_pos (ringbuf_end rb - wadd rb.tail offset % ringbuf_buffer_size rb)
            (ringbuf_bytes_used rb - offset) (by omega) (by omega)
          exact ih _ (by omega)

/-- No call of the four operations ends by exhausting the fuel of the model. -/
theorem no_timeout (rb : ringbuf_t) (c : Int) (n : Nat) (mem : List Nat) :
    (ringbuf_memset rb c n).2 ≠ .timeout ∧
    (ringbuf_memcpy_into rb mem n).2 ≠ .timeout ∧
    (ringbuf_memcpy_from mem rb n).2.2 ≠ .timeout ∧
    ringbuf_findchr rb c n ≠ .timeout := by
  refine ⟨?_, ?_, ?_, ?_⟩
  · have h := memset_loop_no_timeout c (LWIP_MIN n (ringbuf_buffer_size rb)) (ringbuf_end rb) rb
    unfold ringbuf_memset
    simp only
    split
    · next heq => exact absurd heq h
    · simp
    · split
      · split
        · simp
        · split <;> simp
      · simp
  · have h := memcpy_into_loop_no_timeout mem n (ringbuf_end rb) n rb 0 (by omega)
      (Nat.zero_le _)
    unfold ringbuf_memcpy_into
    simp only
    split
    · next heq => exact absurd heq h
    · simp
    · split
      · split
        · simp
        · split <;> simp
      · simp
  · have h := memcpy_from_loop_no_timeout n (ringbuf_end rb) n mem rb 0 (by omega)
      (Nat.zero_le _)
    unfold ringbuf_memcpy_from
    simp only
    split
    · simp
    · split
      · next heq => exact absurd heq h
      · simp
      · split <;> simp
  · exact findchr_rec_no_timeout rb c _ n (by omega)
/-! ## The claims on the queries

The claims C12, C14 and C19 are proved from the two conditions they name: both
cursors are below `size`, and `size` is `capacity + 1`. Every well-formed buffer
meets them. -/

theorem WF_cursors_and_size (rb : ringbuf_t) (h : WF rb) :
    rb.head < rb.size ∧ rb.tail < rb.size ∧ rb.size = ringbuf_capacity rb + 1 := by
  have hc := capacity_eq rb h
  obtain ⟨_, _, h3, h4⟩ := h
  exact ⟨h3, h4, by omega⟩

/-- With `size = capacity + 1` and a cursor below `size`, the queries compute without
wrapping. -/
theorem queries_closed_form (rb : ringbuf_t) (hh : rb.head < rb.size) (ht : rb.tail < rb.size)
    (hs : rb.size = ringbuf_capacity rb + 1) :
    ringbuf_capacity rb = rb.size - 1 ∧
    ringbuf_bytes_free rb =
      (if rb.tail ≤ rb.head then rb.size - 1 - (rb.head - rb.tail) else rb.tail - rb.head - 1) ∧
    ringbuf_bytes_used rb =
      (if rb.tail ≤ rb.head then rb.head - rb.tail else rb.size - rb.tail + rb.head) := by
  have hc : ringbuf_capacity rb = rb.size - 1 := by omega
  have hw : rb.size ≤ WORD := by
    simp only [ringbuf_capacity, ringbuf_buffer_size, wsub, WORD] at hs ⊢
    omega
  have hf : ringbuf_bytes_free rb =
      (if rb.tail ≤ rb.head then rb.size - 1 - (rb.head - rb.tail)
       else rb.tail - rb.head - 1) := by
    simp only [ringbuf_bytes_free, hc, wsub, WORD, ge_iff_le] at hw ⊢
    split <;> omega
  refine ⟨hc, hf, ?_⟩
  simp only [ringbuf_bytes_used, hc, hf, wsub, WORD] at hw ⊢
  split <;> omega

/-- C12. In every state with both cursors below `size` and `size = capacity + 1`:
`bytes_free <= capacity`, `bytes_used + bytes_free = capacity`, neither subtraction
wraps (the subtrahend is at most the minuend in `capacity - (head - tail)`, in
`tail - head - 1` and in `capacity - bytes_free`), and `ringbuf_is_full` holds iff
`bytes_free = 0` iff `bytes_used = capacity`. -/
theorem C12_used_plus_free (rb : ringbuf_t) (hh : rb.head < rb.size) (ht : rb.tail < rb.size)
    (hs : rb.size = ringbuf_capacity rb + 1) :
    ringbuf_bytes_free rb ≤ ringbuf_capacity rb ∧
    ringbuf_bytes_used rb + ringbuf_bytes_free rb = ringbuf_capacity rb ∧
    (rb.head ≥ rb.tail → rb.head - rb.tail ≤ ringbuf_capacity rb ∧
      ringbuf_bytes_free rb = ringbuf_capacity rb - (rb.head - rb.tail)) ∧
    (rb.head < rb.tail → 1 ≤ rb.tail - rb.head ∧
      ringbuf_bytes_free rb = rb.tail - rb.head - 1) ∧
    ringbuf_bytes_used rb = ringbuf_capacity rb - ringbuf_bytes_free rb ∧
    (ringbuf_is_full rb = true ↔ ringbuf_bytes_free rb = 0) ∧
    (ringbuf_bytes_free rb = 0 ↔ ringbuf_bytes_used rb = ringbuf_capacity rb) := by
  obtain ⟨hc, hf, hu⟩ := queries_closed_form rb hh ht hs
  simp only [ringbuf_is_full, beq_iff_eq]
  rw [hf, hu, hc]
  refine ⟨?_, ?_, ?_, ?_, ?_, trivial, ?_⟩
  · split <;> omega
  · split <;> omega
  · intro h
    rw [if_pos h]
    omega
  · intro h
    rw [if_neg (by omega)]
    omega
  · split <;> omega
  · split <;> omega

/-- Witness of C12 on a buffer whose write cursor is behind the read cursor. -/
theorem C12_used_plus_free_witness :
    sampleWrapped.head < sampleWrapped.size ∧ sampleWrapped.tail < sampleWrapped.size ∧
    sampleWrapped.size = ringbuf_capacity sampleWrapped + 1 ∧
    ringbuf_bytes_used sampleWrapped + ringbuf_bytes_free sampleWrapped
      = ringbuf_capacity sampleWrapped :=
  ⟨by decide, by decide, by decide,
    (C12_used_plus_free sampleWrapped (by decide) (by decide) (by decide)).2.1⟩

/-- C14. In every state with both cursors below `size` and `size = capacity + 1`,
`ringbuf_is_empty`, which is `bytes_free = capacity`, holds if and only if the write
cursor equals the read cursor. -/
theorem C14_empty_iff_cursors_equal (rb : ringbuf_t) (hh : rb.head < rb.size)
    (ht : rb.tail < rb.size) (hs : rb.size = ringbuf_capacity rb + 1) :
    (ringbuf_is_empty rb = true ↔ ringbuf_bytes_free rb = ringbuf_capacity rb) ∧
    (ringbuf_is_empty rb = true ↔ rb.head = rb.tail) := by
  obtain ⟨hc, hf, _⟩ := queries_closed_form rb hh ht hs
  simp only [ringbuf_is_empty, beq_iff_eq]
  refine ⟨trivial, ?_⟩
  rw [hf, hc]
  split <;> omega

/-- Witness of C14: an empty buffer with the cursors in the middle of the storage and
a buffer that is not empty. -/
theorem C14_empty_iff_cursors_equal_witness :
    sampleEmpty.head < sampleEmpty.size ∧ sampleEmpty.tail < sampleEmpty.size ∧
    sampleEmpty.size = ringbuf_capacity sampleEmpty + 1 ∧
    sampleWrapped.head < sampleWrapped.size ∧ sampleWrapped.tail < sampleWrapped.size ∧
    sampleWrapped.size = ringbuf_capacity sampleWrapped + 1 ∧
    (ringbuf_is_empty sampleEmpty = true ↔ sampleEmpty.head = sampleEmpty.tail) ∧
    (ringbuf_is_empty sampleWrapped = true ↔ sampleWrapped.head = sampleWrapped.tail) :=
  ⟨by decide, by decide, by decide, by decide, by decide, by decide,
    (C14_empty_iff_cursors_equal sampleEmpty (by decide) (by decide) (by decide)).2,
    (C14_empty_iff_cursors_equal sampleWrapped (by decide) (by decide) (by decide)).2⟩

/-- C19. Closed form for the occupancy: in every state with both cursors below `size`
and `size = capacity + 1`, `bytes_used` is `(head - tail) mod size` and `bytes_free`
is `(tail - head - 1) mod size`, the differences taken in the integers. -/
theorem C19_occupancy_closed_form (rb : ringbuf_t) (hh : rb.head < rb.size)
    (ht : rb.tail < rb.size) (hs : rb.size = ringbuf_capacity rb + 1) :
    (ringbuf_bytes_used rb : Int) = ((rb.head : Int) - (rb.tail : Int)) % (rb.size : Int) ∧
    (ringbuf_bytes_free rb : Int)
      = ((rb.tail : Int) - (rb.head : Int) - 1) % (rb.size : Int) := by
  obtain ⟨_, hf, hu⟩ := queries_closed_form rb hh ht hs
  have hpos : (0 : Int) < (rb.size : Int) := by omega
  constructor
  · rw [hu]
    split
    · next h =>
      rw [Int.emod_eq_of_lt (by omega) (by omega)]
      omega
    · next h =>
      rw [← Int.add_emod_self, Int.emod_eq_of_lt (by omega) (by omega)]
      omega
  · rw [hf]
    split
    · next h =>
      rw [← Int.add_emod_self, Int.emod_eq_of_lt (by omega) (by omega)]
      omega
    · next h =>
      rw [Int.emod_eq_of_lt (by omega) (by omega)]
      omega

/-- Witness of C19 on a buffer whose write cursor is behind the read cursor. -/
theorem C19_occupancy_closed_form_witness :
    sampleWrapped.head < sampleWrapped.size ∧ sampleWrapped.tail < sampleWrapped.size ∧
    sampleWrapped.size = ringbuf_capacity sampleWrapped + 1 ∧
    (ringbuf_bytes_used sampleWrapped : Int)
      = ((sampleWrapped.head : Int) - (sampleWrapped.tail : Int)) % (sampleWrapped.size : Int) ∧
    (ringbuf_bytes_free sampleWrapped : Int)
      = ((sampleWrapped.tail : Int) - (sampleWrapped.head : Int) - 1)
          % (sampleWrapped.size : Int) :=
  ⟨by decide, by decide, by decide,
    C19_occupancy_closed_form sampleWrapped (by decide) (by decide) (by decide)⟩
/-! ## Creation and reset -/

/-- The record `ringbuf_new` creates when `capacity + 1` does not wrap. -/
theorem ringbuf_new_eq (capacity : Nat) (a b : Bool) (rb : ringbuf_t)
    (hcap : capacity + 1 < WORD) (hnew : ringbuf_new capacity a b = some rb) :
    rb = { buf := List.replicate (capacity + 1) 0, head := 0, tail := 0, size := capacity + 1 } := by
  have hw : wadd capacity 1 = capacity + 1 := by
    simp only [wadd, WORD] at *
    omega
  unfold ringbuf_new at hnew
  by_cases ha : a = true
  · by_cases hb : b = true
    · simp only [ha, hb, if_true, ringbuf_reset, hw, Option.some.injEq] at hnew
      exact hnew.symm
    · simp [ha, hb] at hnew
  · simp [ha] at hnew

/-- C13 as stated fails at capacity 4294967295: when both allocations succeed the
record created has `size` 0 and a storage of 0 bytes, not 4294967296. -/
theorem C13_counterexample :
    1 ≤ 4294967295 ∧ ringbuf_new 4294967295 true true = some sampleZero ∧
    sampleZero.size = 0 ∧ sampleZero.size ≠ 4294967295 + 1 ∧ sampleZero.buf.length = 0 := by
  refine ⟨by decide, by decide, by decide, by decide, by decide⟩

/-- C13, amended. For every capacity `c >= 1` with `c + 1` representable in `size_t`
(`c + 1 < 2^32`), the buffer a successful `ringbuf_new(c)` produces has `size = c + 1`,
`ringbuf_capacity = c`, both cursors at the start of the storage, a storage of `c + 1`
zero bytes, `bytes_used = 0`, `bytes_free = c`, `ringbuf_is_empty` true and
`ringbuf_is_full` false. -/
theorem C13_fresh_buffer (c : Nat) (a b : Bool) (rb : ringbuf_t) (hc : 1 ≤ c)
    (hcap : c + 1 < WORD) (hnew : ringbuf_new c a b = some rb) :
    rb.size = c + 1 ∧ ringbuf_buffer_size rb = c + 1 ∧ ringbuf_capacity rb = c ∧
    rb.head = 0 ∧ rb.tail = 0 ∧
    rb.buf = List.replicate (c + 1) 0 ∧ rb.buf.length = c + 1 ∧ (∀ x ∈ rb.buf, x = 0) ∧
    ringbuf_bytes_used rb = 0 ∧ ringbuf_bytes_free rb = c ∧
    ringbuf_is_empty rb = true ∧ ringbuf_is_full rb = false := by
  have e := ringbuf_new_eq c a b rb hcap hnew
  subst e
  have hs : (c + 1 : Nat) = ringbuf_capacity
      { buf := List.replicate (c + 1) 0, head := 0, tail := 0, size := c + 1 } + 1 := by
    simp only [ringbuf_capacity, ringbuf_buffer_size, wsub, WORD] at hcap ⊢
    omega
  obtain ⟨q1, q2, q3⟩ := queries_closed_form
    { buf := List.replicate (c + 1) 0, head := 0, tail := 0, size := c + 1 }
    (show 0 < c + 1 by omega) (show 0 < c + 1 by omega) hs
  simp only [le_refl, if_true, Nat.sub_self, Nat.sub_zero, Nat.add_sub_cancel] at q1 q2 q3
  refine ⟨rfl, rfl, q1, rfl, rfl, rfl, by simp, ?_, q3, q2, ?_, ?_⟩
  · intro x hx
    exact List.eq_of_mem_replicate hx
  · simp only [ringbuf_is_empty, beq_iff_eq, q1, q2]
  · simp only [ringbuf_is_full, q2]
    simp
    omega

/-- Witness of C13: capacity 4. -/
theorem C13_fresh_buffer_witness :
    1 ≤ 4 ∧ 4 + 1 < WORD ∧ ringbuf_new 4 true true = some sampleFresh ∧
    sampleFresh.size = 4 + 1 ∧ ringbuf_buffer_size sampleFresh = 4 + 1 ∧
    ringbuf_capacity sampleFresh = 4 ∧ sampleFresh.head = 0 ∧ sampleFresh.tail = 0 ∧
    sampleFresh.buf = List.replicate (4 + 1) 0 ∧ sampleFresh.buf.length = 4 + 1 ∧
    (∀ x ∈ sampleFresh.buf, x = 0) ∧
    ringbuf_bytes_used sampleFresh = 0 ∧ ringbuf_bytes_free sampleFresh = 4 ∧
    ringbuf_is_empty sampleFresh = true ∧ ringbuf_is_full sampleFresh = false :=
  ⟨by decide, by decide, by decide,
    C13_fresh_buffer 4 true true sampleFresh (by decide) (by decide) (by decide)⟩

/-- C15. For every buffer state, after `ringbuf_reset` the read cursor equals the write
cursor, both are at the start of the storage, `ringbuf_is_empty` is true and
`bytes_used` is 0, while `size` and the storage are unchanged; a second reset changes
nothing. -/
theorem C15_reset (rb : ringbuf_t) :
    (ringbuf_reset rb).tail = (ringbuf_reset rb).head ∧
    (ringbuf_reset rb).head = 0 ∧ (ringbuf_reset rb).tail = 0 ∧
    ringbuf_is_empty (ringbuf_reset rb) = true ∧ ringbuf_bytes_used (ringbuf_reset rb) = 0 ∧
    (ringbuf_reset rb).size = rb.size ∧ (ringbuf_reset rb).buf = rb.buf ∧
    ringbuf_reset (ringbuf_reset rb) = ringbuf_reset rb := by
  refine ⟨rfl, rfl, rfl, ?_, ?_, rfl, rfl, rfl⟩
  · simp only [ringbuf_is_empty, ringbuf_bytes_free, ringbuf_capacity, ringbuf_buffer_size,
      ringbuf_reset, beq_iff_eq, wsub, WORD, ge_iff_le, le_refl, if_true, Nat.sub_self]
    omega
  · simp only [ringbuf_bytes_used, ringbuf_bytes_free, ringbuf_capacity, ringbuf_buffer_size,
      ringbuf_reset, wsub, WORD, ge_iff_le, le_refl, if_true, Nat.sub_self]
    omega
/-! ## The cursor-range invariant -/

/-- The write loop keeps the write cursor inside the storage and leaves the read
cursor and the size alone, however it ends. -/
theorem memcpy_into_loop_cursors (src : List Nat) (count : Nat) :
    ∀ (fuel : Nat) (dst : ringbuf_t) (nread : Nat) (d : ringbuf_t) (k : Nat),
      dst.head < dst.size →
      (ringbuf_memcpy_into_loop src count dst.size fuel dst nread = .finished (d, k) ∨
        ringbuf_memcpy_into_loop src count dst.size fuel dst nread = .asserted (d, k)) →
      d.head < dst.size ∧ d.tail = dst.tail ∧ d.size = dst.size := by
  intro fuel
  induction fuel with
  | zero =>
    intro dst nread d k hh hres
    rw [ringbuf_memcpy_into_loop] at hres
    split at hres
    · simp only [LoopExit.finished.injEq, Prod.mk.injEq, reduceCtorEq, or_false] at hres
      obtain ⟨e, _⟩ := hres
      subst e
      exact ⟨hh, rfl, rfl⟩
    · simp at hres
  | succ fuel ih =>
    intro dst nread d k hh hres
    by_cases e : nread = count
    · subst e
      rw [memcpy_into_loop_done] at hres
      simp only [LoopExit.finished.injEq, Prod.mk.injEq, reduceCtorEq, or_false] at hres
      obtain ⟨e, _⟩ := hres
      subst e
      exact ⟨hh, rfl, rfl⟩
    · rw [memcpy_into_loop_step src count dst.size fuel dst nread e hh] at hres
      have hn1 := LWIP_MIN_le_left (dst.size - dst.head) (count - nread)
      generalize LWIP_MIN (dst.size - dst.head) (count - nread) = n at hres hn1
      have hh2 : (if dst.head + n = dst.size then 0 else dst.head + n) < dst.size := by
        split <;> omega
      generalize hd2 : ({ buf := os_memcpy dst.buf dst.head (memRead src nread n), head := if dst.head + n = dst.size then 0 else dst.head + n, tail := dst.tail, size := dst.size } : ringbuf_t) = d2 at hres
      have hsz : d2.size = dst.size := by rw [← hd2]
      have ht2 : d2.tail = dst.tail := by rw [← hd2]
      have hh3 : d2.head < d2.size := by rw [← hd2]; exact hh2
      rw [← hsz] at hres
      obtain ⟨g1, g2, g3⟩ := ih d2 _ d k hh3 hres
      exact ⟨by omega, by rw [g2, ht2], by rw [g3, hsz]⟩

/-- The read loop keeps the read cursor inside the storage and leaves the write
cursor, the size and the storage alone, however it ends. -/
theorem memcpy_from_loop_cursors (count : Nat) :
    ∀ (fuel : Nat) (dst : List Nat) (src : ringbuf_t) (nw : Nat) (d : List Nat) (s : ringbuf_t)
      (k : Nat), src.tail < src.size →
      (ringbuf_memcpy_from_loop count src.size fuel dst src nw = .finished (d, s, k) ∨
        ringbuf_memcpy_from_loop count src.size fuel dst src nw = .asserted (d, s, k)) →
      s.tail < src.size ∧ s.head = src.head ∧ s.size = src.size ∧ s.buf = src.buf := by
  intro fuel
  induction fuel with
  | zero =>
    intro dst src nw d s k ht hres
    rw [ringbuf_memcpy_from_loop] at hres
    split at hres
    · simp only [LoopExit.finished.injEq, Prod.mk.injEq, reduceCtorEq, or_false] at hres
      obtain ⟨_, e, _⟩ := hres
      subst e
      exact ⟨ht, rfl, rfl, rfl⟩
    · simp at hres
  | succ fuel ih =>
    intro dst src nw d s k ht hres
    by_cases e : nw = count
    · subst e
      rw [memcpy_from_loop_done] at hres
      simp only [LoopExit.finished.injEq, Prod.mk.injEq, reduceCtorEq, or_false] at hres
      obtain ⟨_, e, _⟩ := hres
      subst e
      exact ⟨ht, rfl, rfl, rfl⟩
    · rw [memcpy_from_loop_step count src.size fuel dst src nw e ht] at hres
      have hn1 := LWIP_MIN_le_left (src.size - src.tail) (count - nw)
      generalize LWIP_MIN (src.size - src.tail) (count - nw) = n at hres hn1
      have ht2 : (if src.tail + n = src.size then 0 else src.tail + n) < src.size := by
        split <;> omega
      generalize hs2 : ({ buf := src.buf, head := src.head, tail := if src.tail + n = src.size then 0 else src.tail + n, size := src.size } : ringbuf_t) = s2 at hres
      have hsz : s2.size = src.size := by rw [← hs2]
      have hhd : s2.head = src.head := by rw [← hs2]
      have hbf : s2.buf = src.buf := by rw [← hs2]
      have ht3 : s2.tail < s2.size := by rw [← hs2]; exact ht2
      rw [← hsz] at hres
      obtain ⟨g1, g2, g3, g4⟩ := ih _ s2 _ d s k ht3 hres
      exact ⟨by omega, by rw [g2, hhd], by rw [g3, hsz], by rw [g4, hbf]⟩

/-- The part of `ringbuf_memcpy_into` and `ringbuf_memset` after the loop keeps the
cursors in range. -/
theorem memcpy_into_cursors (dst : ringbuf_t) (src : List Nat) (count : Nat)
    (h : CursorsInRange dst) :
    CursorsInRange (ringbuf_memcpy_into dst src count).1 ∧
    (ringbuf_memcpy_into dst src count).1.size = dst.size := by
  obtain ⟨hh, ht⟩ := h
  have hloop := memcpy_into_loop_cursors src count count dst 0
  unfold ringbuf_memcpy_into
  simp only [ringbuf_end, ringbuf_buffer_size]
  split
  · exact ⟨⟨hh, ht⟩, rfl⟩
  · next d k heq =>
    obtain ⟨g1, g2, g3⟩ := hloop d k hh (Or.inr heq)
    exact ⟨⟨by rw [g3]; exact g1, by rw [g2, g3]; exact ht⟩, g3⟩
  · next d k heq =>
    obtain ⟨g1, g2, g3⟩ := hloop d k hh (Or.inl heq)
    have hnext : ringbuf_nextp d d.head = some ((d.head + 1) % d.size) := by
      simp [ringbuf_nextp, ringbuf_end, ringbuf_buffer_size, g3, g1]
    have hm : (d.head + 1) % d.size < d.size := Nat.mod_lt _ (by omega)
    split
    · rw [hnext]
      simp only
      split
      · exact ⟨⟨by rw [g3]; exact g1, hm⟩, g3⟩
      · exact ⟨⟨by rw [g3]; exact g1, hm⟩, g3⟩
    · exact ⟨⟨by rw [g3]; exact g1, by rw [g2, g3]; exact ht⟩, g3⟩
theorem memset_cursors (dst : ringbuf_t) (c : Int) (len : Nat) (h : CursorsInRange dst) :
    CursorsInRange (ringbuf_memset dst c len).1 ∧ (ringbuf_memset dst c len).1.size = dst.size := by
  obtain ⟨hh, ht⟩ := h
  have hloop := memcpy_into_loop_cursors (List.replicate (LWIP_MIN len dst.size) (toByte c))
    (LWIP_MIN len dst.size) (LWIP_MIN len dst.size) dst 0
  unfold ringbuf_memset
  simp only [ringbuf_end, ringbuf_buffer_size, memset_loop_eq _ _ _ _ _ _ (Nat.zero_le _)]
  split
  · exact ⟨⟨hh, ht⟩, rfl⟩
  · next d k heq =>
    obtain ⟨g1, g2, g3⟩ := hloop d k hh (Or.inr heq)
    exact ⟨⟨by rw [g3]; exact g1, by rw [g2, g3]; exact ht⟩, g3⟩
  · next d k heq =>
    obtain ⟨g1, g2, g3⟩ := hloop d k hh (Or.inl heq)
    have hnext : ringbuf_nextp d d.head = some ((d.head + 1) % d.size) := by
      simp [ringbuf_nextp, ringbuf_end, ringbuf_buffer_size, g3, g1]
    have hm : (d.head + 1) % d.size < d.size := Nat.mod_lt _ (by omega)
    split
    · rw [hnext]
      simp only
      split
      · exact ⟨⟨by rw [g3]; exact g1, hm⟩, g3⟩
      · exact ⟨⟨by rw [g3]; exact g1, hm⟩, g3⟩
    · exact ⟨⟨by rw [g3]; exact g1, by rw [g2, g3]; exact ht⟩, g3⟩

theorem memcpy_from_cursors (dst : List Nat) (src : ringbuf_t) (count : Nat)
    (h : CursorsInRange src) :
    CursorsInRange (ringbuf_memcpy_from dst src count).2.1 ∧
    (ringbuf_memcpy_from dst src count).2.1.size = src.size := by
  obtain ⟨hh, ht⟩ := h
  have hloop := memcpy_from_loop_cursors count count dst src 0
  unfold ringbuf_memcpy_from
  simp only [ringbuf_end, ringbuf_buffer_size]
  split
  · exact ⟨⟨hh, ht⟩, rfl⟩
  · split
    · exact ⟨⟨hh, ht⟩, rfl⟩
    · next d s k heq =>
      obtain ⟨g1, g2, g3, _⟩ := hloop d s k ht (Or.inr heq)
      exact ⟨⟨by rw [g2, g3]; exact hh, by rw [g3]; exact g1⟩, g3⟩
    · next d s k heq =>
      obtain ⟨g1, g2, g3, _⟩ := hloop d s k ht (Or.inl heq)
      split
      · exact ⟨⟨by rw [g2, g3]; exact hh, by rw [g3]; exact g1⟩, g3⟩
      · exact ⟨⟨by rw [g2, g3]; exact hh, by rw [g3]; exact g1⟩, g3⟩

/-- C11 as stated fails for the buffer created with capacity 4294967295: its size is
0 and its cursors, both 0, are not below the size. -/
theorem C11_counterexample :
    ringbuf_new 4294967295 true true = some sampleZero ∧ ¬ CursorsInRange sampleZero := by
  refine ⟨by decide, by decide⟩

/-- C11, amended. The cursor-range invariant, both cursors below `size`, holds for the
buffer `ringbuf_new` creates with a capacity whose successor is representable in
`size_t` (`capacity + 1 < 2^32`), and is preserved, with the size, by `ringbuf_reset`,
by `ringbuf_memset` with every value and length, by `ringbuf_memcpy_into` with every
source and count, larger than `size` or not, and by `ringbuf_memcpy_from` with every
count, refused or not. -/
theorem C11_cursor_range :
    (∀ (capacity : Nat) (a b : Bool) (rb : ringbuf_t), capacity + 1 < WORD →
      ringbuf_new capacity a b = some rb → CursorsInRange rb) ∧
    (∀ rb : ringbuf_t, CursorsInRange rb → CursorsInRange (ringbuf_reset rb)) ∧
    (∀ (rb : ringbuf_t) (c : Int) (len : Nat), CursorsInRange rb →
      CursorsInRange (ringbuf_memset rb c len).1 ∧ (ringbuf_memset rb c len).1.size = rb.size) ∧
    (∀ (rb : ringbuf_t) (src : List Nat) (count : Nat), CursorsInRange rb →
      CursorsInRange (ringbuf_memcpy_into rb src count).1 ∧
      (ringbuf_memcpy_into rb src count).1.size = rb.size) ∧
    (∀ (dst : List Nat) (rb : ringbuf_t) (count : Nat), CursorsInRange rb →
      CursorsInRange (ringbuf_memcpy_from dst rb count).2.1 ∧
      (ringbuf_memcpy_from dst rb count).2.1.size = rb.size) := by
  refine ⟨?_, ?_, memset_cursors, memcpy_into_cursors, memcpy_from_cursors⟩
  · intro capacity a b rb hcap hnew
    have e := ringbuf_new_eq capacity a b rb hcap hnew
    subst e
    exact ⟨Nat.succ_pos _, Nat.succ_pos _⟩
  · intro rb h
    obtain ⟨h1, _⟩ := h
    exact ⟨show 0 < rb.size by omega, show 0 < rb.size by omega⟩

/-- Witness of C11: the buffer of capacity 4 and a copy of thirteen bytes into a
buffer of size 5. -/
theorem C11_cursor_range_witness :
    4 + 1 < WORD ∧ ringbuf_new 4 true true = some sampleFresh ∧ CursorsInRange sampleFresh ∧
    CursorsInRange samplePartial ∧
    CursorsInRange (ringbuf_memcpy_into samplePartial
      [1, 2, 3, 4, 5, 6, 7, 8, 9, 10, 11, 12, 13] 13).1 ∧
    CursorsInRange (ringbuf_memcpy_from [0] samplePartial 7).2.1 :=
  ⟨by decide, by decide, C11_cursor_range.1 4 true true sampleFresh (by decide) (by decide),
    by decide,
    (C11_cursor_range.2.2.2.1 samplePartial [1, 2, 3, 4, 5, 6, 7, 8, 9, 10, 11, 12, 13] 13
      (by decide)).1,
    (C11_cursor_range.2.2.2.2 [0] samplePartial 7 (by decide)).1⟩
/-! ## Composition of calls -/

theorem ringbuf_t_ext (x y : ringbuf_t) (h1 : x.buf = y.buf) (h2 : x.head = y.head)
    (h3 : x.tail = y.tail) (h4 : x.size = y.size) : x = y := by
  cases x
  cases y
  simp only at h1 h2 h3 h4
  subst h1 h2 h3 h4
  rfl

/-- Two writes in a row leave the buffer a single write of the concatenation leaves. -/
theorem memcpy_into_append (rb : ringbuf_t) (A B : List Nat) (hwf : WF rb) :
    ∃ d1 d2 : ringbuf_t,
      ringbuf_memcpy_into rb A A.length = (d1, .value d1.head) ∧
      ringbuf_memcpy_into d1 B B.length = (d2, .value d2.head) ∧
      ringbuf_memcpy_into rb (A ++ B) (A ++ B).length = (d2, .value d2.head) := by
  have hsum0 := bytes_used_add_free rb hwf
  have hu1 := bytes_used_memcpy_into rb A A.length hwf (le_refl _)
  obtain ⟨d1, hd1, hwf1, s1, e1, r1, t1⟩ := memcpy_into_spec rb A A.length hwf (le_refl _)
  obtain ⟨d2, hd2, hwf2, s2, e2, r2, t2⟩ := memcpy_into_spec d1 B B.length hwf1 (le_refl _)
  obtain ⟨d, hd, hwfd, s, e, r, t⟩ :=
    memcpy_into_spec rb (A ++ B) (A ++ B).length hwf (le_refl _)
  have hsum1 := bytes_used_add_free d1 hwf1
  rw [hd1] at hu1
  simp only at hu1
  rw [List.take_length] at r1 r2 r
  rw [List.length_append] at e r t
  have hV : (rb.buf.rotate rb.head).length = rb.size := by
    rw [List.length_rotate]; exact hwf.1
  have hhead : d2.head = d.head := by
    rw [e2, e1, s1, Nat.mod_add_mod, e, Nat.add_assoc]
  have hbuf : d2.buf = d.buf := by
    have hrot : d2.buf.rotate d2.head = d.buf.rotate d2.head := by
      have e3 : List.drop A.length (rb.buf.rotate rb.head ++ A ++ B)
          = List.drop A.length (rb.buf.rotate rb.head ++ A) ++ B :=
        List.drop_append_of_le_length (by rw [List.length_append]; omega)
      rw [r2, r1, hhead, r, ← List.append_assoc, ← List.drop_drop, e3]
    exact List.rotate_eq_rotate.mp hrot
  have htail : d2.tail = d.tail := by
    rw [t2, t, t1, s1, hhead]
    by_cases o1 : A.length > ringbuf_bytes_free rb
    · rw [if_pos o1] at hu1
      rw [if_pos o1, if_pos (show A.length + B.length > ringbuf_bytes_free rb by omega)]
      by_cases hb : B.length = 0
      · rw [if_neg (by omega)]
        have e3 : d.head = d1.head := by
          rw [e, e1, hb, Nat.add_zero]
        rw [e3]
      · rw [if_pos (by omega)]
    · rw [if_neg o1] at hu1
      rw [if_neg o1]
      by_cases o2 : B.length > ringbuf_bytes_free d1
      · rw [if_pos o2, if_pos (show A.length + B.length > ringbuf_bytes_free rb by omega)]
      · rw [if_neg o2, if_neg (show ¬ A.length + B.length > ringbuf_bytes_free rb by omega)]
  have hdd : d2 = d := ringbuf_t_ext d2 d hbuf hhead htail (by rw [s2, s1, s])
  exact ⟨d1, d2, hd1, hd2, by rw [hd, hdd]⟩

/-- C20. Writes compose: on a well-formed buffer, for all byte sequences `A` and `B`,
overflowing or not, `ringbuf_memcpy_into` of `A` followed by `ringbuf_memcpy_into` of
`B` leaves exactly the state (storage, write cursor, read cursor, size) and returns the
cursor that a single `ringbuf_memcpy_into` of `A ++ B` does; and for
`m + n <= bytes_used`, `ringbuf_memcpy_from` of `m` bytes followed by
`ringbuf_memcpy_from` of `n` bytes delivers, one after the other, the bytes that
`ringbuf_memcpy_from` of `m + n` bytes delivers, and leaves the same state and returns
the same cursor. -/
theorem C20_calls_compose (rb : ringbuf_t) (hwf : WF rb) :
    (∀ A B : List Nat,
      ringbuf_memcpy_into (ringbuf_memcpy_into rb A A.length).1 B B.length
        = ringbuf_memcpy_into rb (A ++ B) (A ++ B).length) ∧
    (∀ (dst1 dst2 dst : List Nat) (m n : Nat), m + n ≤ ringbuf_bytes_used rb →
      (ringbuf_memcpy_from dst2 (ringbuf_memcpy_from dst1 rb m).2.1 n).2
        = (ringbuf_memcpy_from dst rb (m + n)).2 ∧
      (ringbuf_memcpy_from dst1 rb m).1.take m
          ++ (ringbuf_memcpy_from dst2 (ringbuf_memcpy_from dst1 rb m).2.1 n).1.take n
        = (ringbuf_memcpy_from dst rb (m + n)).1.take (m + n)) := by
  constructor
  · intro A B
    obtain ⟨d1, d2, h1, h2, h3⟩ := memcpy_into_append rb A B hwf
    rw [h1, h3]
    exact h2
  · intro dst1 dst2 dst m n hmn
    have hl := buffered_length rb hwf
    obtain ⟨s1, hs1, hwf1, b1, hd1, z1, t1, u1, c1⟩ := memcpy_from_spec dst1 rb m hwf (by omega)
    obtain ⟨s2, hs2, hwf2, b2, hd2, z2, t2, u2, c2⟩ :=
      memcpy_from_spec dst2 s1 n hwf1 (by omega)
    obtain ⟨s, hs, hwfs, b, hd, z, t, u, c⟩ := memcpy_from_spec dst rb (m + n) hwf hmn
    have hss : s2 = s := by
      apply ringbuf_t_ext
      · rw [b2, b1, b]
      · rw [hd2, hd1, hd]
      · rw [t2, t1, z1, Nat.mod_add_mod, t, Nat.add_assoc]
      · rw [z2, z1, z]
    rw [hs1]
    simp only
    rw [hs2, hs]
    simp only
    constructor
    · rw [hss]
    · rw [c1]
      rw [List.take_left' (by rw [List.length_take]; omega),
        List.take_left' (by rw [List.length_take, List.length_drop]; omega),
        List.take_left' (by rw [List.length_take]; omega), List.take_add]

/-- Witness of C20: two reads from the buffer holding three bytes across the end of
the storage. -/
theorem C20_calls_compose_witness :
    WF sampleWrapped ∧ 1 + 2 ≤ ringbuf_bytes_used sampleWrapped ∧
    ringbuf_memcpy_into (ringbuf_memcpy_into sampleWrapped [1, 2] [1, 2].length).1 [3, 4, 5]
        [3, 4, 5].length
      = ringbuf_memcpy_into sampleWrapped ([1, 2] ++ [3, 4, 5]) ([1, 2] ++ [3, 4, 5]).length ∧
    (ringbuf_memcpy_from [0, 0] (ringbuf_memcpy_from [0] sampleWrapped 1).2.1 2).2
      = (ringbuf_memcpy_from [0, 0, 0] sampleWrapped (1 + 2)).2 :=
  ⟨by decide, by decide, (C20_calls_compose sampleWrapped (by decide)).1 [1, 2] [3, 4, 5],
    ((C20_calls_compose sampleWrapped (by decide)).2 [0] [0, 0] [0, 0, 0] 1 2 (by decide)).1⟩
/-! ## The segment operations of the loops -/

/-- Dropping the list of segments from the loop of `ringbuf_memcpy_into` gives the
loop itself, and the list is `copy_segments` from the write cursor. -/
theorem memcpy_into_loop_segments_eq (src : List Nat) (count bufend : Nat) :
    ∀ (fuel : Nat) (dst : ringbuf_t) (nread : Nat),
      (ringbuf_memcpy_into_loop_segments src count bufend fuel dst nread).1
        = ringbuf_memcpy_into_loop src count bufend fuel dst nread ∧
      (ringbuf_memcpy_into_loop_segments src count bufend fuel dst nread).2
        = copy_segments count bufend fuel dst.head nread := by
  intro fuel
  induction fuel with
  | zero =>
    intro dst nread
    simp only [ringbuf_memcpy_into_loop_segments, ringbuf_memcpy_into_loop, copy_segments,
      and_self]
  | succ fuel ih =>
    intro dst nread
    rw [ringbuf_memcpy_into_loop_segments, ringbuf_memcpy_into_loop, copy_segments]
    by_cases e : nread = count
    · simp only [if_pos e, and_self]
    · simp only [if_neg e]
      by_cases hlt : bufend > dst.head
      · simp only [hlt, not_true_eq_false, if_false]
        split
        · next h =>
          exact ⟨(ih _ _).1, by rw [(ih _ _).2]⟩
        · next h =>
          exact ⟨(ih _ _).1, by rw [(ih _ _).2]⟩
      · simp only [hlt, not_false_eq_true, if_true, and_self]

theorem memset_loop_segments_eq (c : Int) (count bufend : Nat) :
    ∀ (fuel : Nat) (dst : ringbuf_t) (nw : Nat),
      (ringbuf_memset_loop_segments c count bufend fuel dst nw).1
        = ringbuf_memset_loop c count bufend fuel dst nw ∧
      (ringbuf_memset_loop_segments c count bufend fuel dst nw).2
        = copy_segments count bufend fuel dst.head nw := by
  intro fuel
  induction fuel with
  | zero =>
    intro dst nw
    simp only [ringbuf_memset_loop_segments, ringbuf_memset_loop, copy_segments, and_self]
  | succ fuel ih =>
    intro dst nw
    rw [ringbuf_memset_loop_segments, ringbuf_memset_loop, copy_segments]
    by_cases e : nw = count
    · simp only [if_pos e, and_self]
    · simp only [if_neg e]
      by_cases hlt : bufend > dst.head
      · simp only [hlt, not_true_eq_false, if_false]
        split
        · next h =>
          exact ⟨(ih _ _).1, by rw [(ih _ _).2]⟩
        · next h =>
          exact ⟨(ih _ _).1, by rw [(ih _ _).2]⟩
      · simp only [hlt, not_false_eq_true, if_true, and_self]

theorem memcpy_from_loop_segments_eq (count bufend : Nat) :
    ∀ (fuel : Nat) (dst : List Nat) (src : ringbuf_t) (nw : Nat),
      (ringbuf_memcpy_from_loop_segments count bufend fuel dst src nw).1
        = ringbuf_memcpy_from_loop count bufend fuel dst src nw ∧
      (ringbuf_memcpy_from_loop_segments count bufend fuel dst src nw).2
        = copy_segments count bufend fuel src.tail nw := by
  intro fuel
  induction fuel with
  | zero =>
    intro dst src nw
    simp only [ringbuf_memcpy_from_loop_segments, ringbuf_memcpy_from_loop, copy_segments,
      and_self]
  | succ fuel ih =>
    intro dst src nw
    rw [ringbuf_memcpy_from_loop_segments, ringbuf_memcpy_from_loop, copy_segments]
    by_cases e : nw = count
    · simp only [if_pos e, and_self]
    · simp only [if_neg e]
      by_cases hlt : bufend > src.tail
      · simp only [hlt, not_true_eq_false, if_false]
        split
        · next h =>
          exact ⟨(ih _ _ _).1, by rw [(ih _ _ _).2]⟩
        · next h =>
          exact ⟨(ih _ _ _).1, by rw [(ih _ _ _).2]⟩
      · simp only [hlt, not_false_eq_true, if_true, and_self]
theorem copy_segments_done (count bufend fuel cur : Nat) :
    copy_segments count bufend fuel cur count = [] := by
  cases fuel <;> simp [copy_segments]

theorem copy_segments_step (count bufend fuel cur done : Nat) (hne : done ≠ count)
    (hlt : cur < bufend) :
    copy_segments count bufend (fuel + 1) cur done =
      (cur, LWIP_MIN (bufend - cur) (count - done)) ::
        copy_segments count bufend fuel
          (if cur + LWIP_MIN (bufend - cur) (count - done) = bufend then 0
           else cur + LWIP_MIN (bufend - cur) (count - done))
          (done + LWIP_MIN (bufend - cur) (count - done)) := by
  rw [copy_segments]
  simp only [if_neg hne, gt_iff_lt, hlt, not_true_eq_false, if_false]

/-- From a cursor inside the storage, at most `size` bytes are cut into at most two
segments. -/
theorem copy_segments_two (size count fuel cur done : Nat) (hcur : cur < size)
    (hdone : done ≤ count) (hsize : count - done ≤ size) (hfuel : count - done ≤ fuel) :
    AtMostTwoSegments size (copy_segments count size fuel cur done) := by
  by_cases e : done = count
  · subst e
    rw [copy_segments_done]
    exact ⟨by simp, by simp, by simp⟩
  · obtain ⟨f, rfl⟩ : ∃ f, fuel = f + 1 := ⟨fuel - 1, by omega⟩
    rw [copy_segments_step count size f cur done e hcur]
    have hn1 := LWIP_MIN_le_left (size - cur) (count - done)
    have hn2 := LWIP_MIN_le_right (size - cur) (count - done)
    have hn3 := LWIP_MIN_pos (size - cur) (count - done) (by omega) (by omega)
    have hn4 : LWIP_MIN (size - cur) (count - done) = size - cur ∨
        LWIP_MIN (size - cur) (count - done) = count - done := by
      unfold LWIP_MIN
      split
      · exact Or.inl rfl
      · exact Or.inr rfl
    generalize LWIP_MIN (size - cur) (count - done) = n1 at hn1 hn2 hn3 hn4 ⊢
    by_cases e1 : done + n1 = count
    · rw [e1, copy_segments_done]
      refine ⟨by simp, ?_, by simp⟩
      intro s hs
      rw [List.mem_singleton] at hs
      subst hs
      exact ⟨hn3, by show cur + n1 ≤ size; omega⟩
    · have hc : cur + n1 = size := by omega
      obtain ⟨g, rfl⟩ : ∃ g, f = g + 1 := ⟨f - 1, by omega⟩
      rw [if_pos hc, copy_segments_step count size g 0 (done + n1) e1 (by omega)]
      have hn5 : LWIP_MIN (size - 0) (count - (done + n1)) = count - (done + n1) := by
        unfold LWIP_MIN
        rw [if_neg (by omega)]
      rw [hn5]
      have e2 : done + n1 + (count - (done + n1)) = count := by omega
      rw [e2, copy_segments_done]
      refine ⟨by simp, ?_, ?_⟩
      · intro s hs
        simp only [List.mem_cons, List.mem_singleton, List.not_mem_nil, or_false] at hs
        rcases hs with hs | hs
        · subst hs
          exact ⟨hn3, by show cur + n1 ≤ size; omega⟩
        · subst hs
          exact ⟨by show 1 ≤ count - (done + n1); omega,
            by show 0 + (count - (done + n1)) ≤ size; omega⟩
      · intro s1 s2 hs
        simp only [List.cons.injEq, and_true] at hs
        obtain ⟨h1, h2⟩ := hs
        subst h1 h2
        exact ⟨hc, rfl⟩

/-- C16. Two-segment bound: from every well-formed buffer the loop of each bulk
operation performs at most two contiguous segment operations, each of at least one
byte and inside the storage: `ringbuf_memset` for every length, `ringbuf_memcpy_from`
for every count and `ringbuf_memcpy_into` for every `count <= size`; when two are
performed the first ends exactly at the end of the storage and the second starts at
the start of the storage. The loops listed with their segments are the loops of the
three operations. -/
theorem C16_two_segments (rb : ringbuf_t) (hwf : WF rb) :
    (∀ (c : Int) (len : Nat), AtMostTwoSegments rb.size (ringbuf_memset_segments rb c len)) ∧
    (∀ (dst : List Nat) (count : Nat),
      AtMostTwoSegments rb.size (ringbuf_memcpy_from_segments dst rb count)) ∧
    (∀ (src : List Nat) (count : Nat), count ≤ rb.size →
      AtMostTwoSegments rb.size (ringbuf_memcpy_into_segments rb src count)) ∧
    (∀ (c : Int) (count bufend fuel : Nat) (dst : ringbuf_t) (nw : Nat),
      (ringbuf_memset_loop_segments c count bufend fuel dst nw).1
        = ringbuf_memset_loop c count bufend fuel dst nw) ∧
    (∀ (count bufend fuel : Nat) (dst : List Nat) (src : ringbuf_t) (nw : Nat),
      (ringbuf_memcpy_from_loop_segments count bufend fuel dst src nw).1
        = ringbuf_memcpy_from_loop count bufend fuel dst src nw) ∧
    (∀ (src : List Nat) (count bufend fuel : Nat) (dst : ringbuf_t) (nread : Nat),
      (ringbuf_memcpy_into_loop_segments src count bufend fuel dst nread).1
        = ringbuf_memcpy_into_loop src count bufend fuel dst nread) := by
  have hlt := bytes_used_lt_size rb hwf
  obtain ⟨h1, h2, h3, h4⟩ := hwf
  refine ⟨?_, ?_, ?_, ?_, ?_, ?_⟩
  · intro c len
    unfold ringbuf_memset_segments
    rw [(memset_loop_segments_eq _ _ _ _ _ _).2]
    simp only [ringbuf_end, ringbuf_buffer_size]
    have hle := LWIP_MIN_le_right len rb.size
    exact copy_segments_two rb.size _ _ rb.head 0 h3 (Nat.zero_le _) (by omega) (by omega)
  · intro dst count
    unfold ringbuf_memcpy_from_segments
    split
    · exact ⟨by simp, by simp, by simp⟩
    · rw [(memcpy_from_loop_segments_eq _ _ _ _ _ _).2]
      simp only [ringbuf_end, ringbuf_buffer_size]
      exact copy_segments_two rb.size _ _ rb.tail 0 h4 (Nat.zero_le _) (by omega) (by omega)
  · intro src count hcount
    unfold ringbuf_memcpy_into_segments
    rw [(memcpy_into_loop_segments_eq _ _ _ _ _ _).2]
    simp only [ringbuf_end, ringbuf_buffer_size]
    exact copy_segments_two rb.size _ _ rb.head 0 h3 (Nat.zero_le _) (by omega) (by omega)
  · intro c count bufend fuel dst nw
    exact (memset_loop_segments_eq c count bufend fuel dst nw).1
  · intro count bufend fuel dst src nw
    exact (memcpy_from_loop_segments_eq count bufend fuel dst src nw).1
  · intro src count bufend fuel dst nread
    exact (memcpy_into_loop_segments_eq src count bufend fuel dst nread).1

/-- Witness of C16: the two segments of five bytes written from the offset 4 of a
storage of 5 bytes. -/
theorem C16_two_segments_witness :
    WF samplePartial ∧ 5 ≤ samplePartial.size ∧
    ringbuf_memcpy_into_segments samplePartial [1, 2, 3, 4, 5] 5 = [(4, 1), (0, 4)] ∧
    AtMostTwoSegments samplePartial.size
      (ringbuf_memcpy_into_segments samplePartial [1, 2, 3, 4, 5] 5) :=
  ⟨by decide, by decide, by decide,
    (C16_two_segments samplePartial (by decide)).2.2.1 [1, 2, 3, 4, 5] 5 (by decide)⟩
/-! ## The segments of the search -/

theorem findchr_rec_segments_fst (rb : ringbuf_t) (c : Int) :
    ∀ (fuel offset : Nat),
      (ringbuf_findchr_rec_segments rb c fuel offset).1 = ringbuf_findchr_rec rb c fuel offset := by
  intro fuel
  induction fuel with
  | zero =>
    intro offset
    rw [ringbuf_findchr_rec_segments, ringbuf_findchr_rec]
    simp only
    split
    · rfl
    · split
      · rfl
      · split <;> rfl
  | succ fuel ih =>
    intro offset
    rw [ringbuf_findchr_rec_segments, ringbuf_findchr_rec]
    simp only
    split
    · rfl
    · split
      · rfl
      · split
        · rfl
        · exact ih _

theorem findchr_rec_segments_nil (rb : ringbuf_t) (c : Int) (fuel offset : Nat)
    (h : ringbuf_bytes_used rb ≤ offset) :
    (ringbuf_findchr_rec_segments rb c fuel offset).2 = [] := by
  rw [ringbuf_findchr_rec_segments]
  simp only [ge_iff_le, if_pos h]

/-- The first segment of the search from an offset below `bytes_used`, and what
follows it. -/
theorem findchr_rec_segments_cons (rb : ringbuf_t) (c : Int) (hwf : WF rb) (fuel offset : Nat)
    (h : offset < ringbuf_bytes_used rb) :
    (ringbuf_findchr_rec_segments rb c fuel offset).2
        = [(offset, wadd rb.tail offset % rb.size,
            LWIP_MIN (rb.size - wadd rb.tail offset % rb.size) (ringbuf_bytes_used rb - offset))] ∨
    ∃ f, fuel = f + 1 ∧
      (ringbuf_findchr_rec_segments rb c fuel offset).2
        = (offset, wadd rb.tail offset % rb.size,
            LWIP_MIN (rb.size - wadd rb.tail offset % rb.size) (ringbuf_bytes_used rb - offset))
          :: (ringbuf_findchr_rec_segments rb c f
                (offset + LWIP_MIN (rb.size - wadd rb.tail offset % rb.size)
                  (ringbuf_bytes_used rb - offset))).2 := by
  have hlt := bytes_used_lt_size rb hwf
  obtain ⟨h1, h2, h3, h4⟩ := hwf
  have hm : wadd rb.tail offset % rb.size < rb.size := Nat.mod_lt _ (by omega)
  rw [ringbuf_findchr_rec_segments]
  simp only [ge_iff_le, if_neg (show ¬ ringbuf_bytes_used rb ≤ offset by omega), ringbuf_end,
    ringbuf_buffer_size, gt_iff_lt, hm, not_true_eq_false, if_false]
  split
  · exact Or.inl rfl
  · cases fuel with
    | zero => exact Or.inl rfl
    | succ f => exact Or.inr ⟨f, rfl, rfl⟩

/-- Every segment the search scans lies in the buffered region and in the storage, has
at least one byte, starts where the previous one ended, and together they have at
most `bytes_used - offset` bytes. -/
theorem findchr_rec_segments_props (rb : ringbuf_t) (c : Int) (hwf : WF rb) :
    ∀ (fuel offset : Nat),
      (∀ s ∈ (ringbuf_findchr_rec_segments rb c fuel offset).2,
        offset ≤ s.1 ∧ s.1 < ringbuf_bytes_used rb ∧ 1 ≤ s.2.2 ∧
        s.1 + s.2.2 ≤ ringbuf_bytes_used rb ∧ s.2.1 = wadd rb.tail s.1 % rb.size ∧
        s.2.1 + s.2.2 ≤ rb.size) ∧
      (((ringbuf_findchr_rec_segments rb c fuel offset).2).map (fun s => s.2.2)).sum
        ≤ ringbuf_bytes_used rb - offset ∧
      List.Chain' (fun a b : Nat × Nat × Nat => b.1 = a.1 + a.2.2)
        (ringbuf_findchr_rec_segments rb c fuel offset).2 ∧
      (∀ s, ((ringbuf_findchr_rec_segments rb c fuel offset).2).head? = some s →
        s.1 = offset) := by
  have hsz : 0 < rb.size := by
    obtain ⟨_, _, h3, _⟩ := hwf
    omega
  have first : ∀ offset, offset < ringbuf_bytes_used rb →
      1 ≤ LWIP_MIN (rb.size - wadd rb.tail offset % rb.size) (ringbuf_bytes_used rb - offset) ∧
      offset + LWIP_MIN (rb.size - wadd rb.tail offset % rb.size)
        (ringbuf_bytes_used rb - offset) ≤ ringbuf_bytes_used rb ∧
      wadd rb.tail offset % rb.size + LWIP_MIN (rb.size - wadd rb.tail offset % rb.size)
        (ringbuf_bytes_used rb - offset) ≤ rb.size := by
    intro offset ho
    have hm : wadd rb.tail offset % rb.size < rb.size := Nat.mod_lt _ hsz
    have a1 := LWIP_MIN_le_left (rb.size - wadd rb.tail offset % rb.size)
      (ringbuf_bytes_used rb - offset)
    have a2 := LWIP_MIN_le_right (rb.size - wadd rb.tail offset % rb.size)
      (ringbuf_bytes_used rb - offset)
    have a3 := LWIP_MIN_pos (rb.size - wadd rb.tail offset % rb.size)
      (ringbuf_bytes_used rb - offset) (by omega) (by omega)
    exact ⟨a3, by omega, by omega⟩
  intro fuel
  induction fuel with
  | zero =>
    intro offset
    by_cases ho : ringbuf_bytes_used rb ≤ offset
    · rw [findchr_rec_segments_nil rb c 0 offset ho]
      exact ⟨by simp, by simp, List.chain'_nil, by simp⟩
    · obtain ⟨f1, f2, f3⟩ := first offset (by omega)
      rcases findchr_rec_segments_cons rb c hwf 0 offset (by omega) with h | ⟨f, hf, _⟩
      · rw [h]
        refine ⟨?_, ?_, List.chain'_singleton _, ?_⟩
        · intro s hs
          rw [List.mem_singleton] at hs
          subst hs
          exact ⟨le_refl _, by omega, f1, f2, rfl, f3⟩
        · simp only [List.map_cons, List.map_nil, List.sum_cons, List.sum_nil]
          omega
        · intro s hs
          simp only [List.head?_cons, Option.some.injEq] at hs
          subst hs
          rfl
      · omega
  | succ fuel ih =>
    intro offset
    by_cases ho : ringbuf_bytes_used rb ≤ offset
    · rw [findchr_rec_segments_nil rb c _ offset ho]
      exact ⟨by simp, by simp, List.chain'_nil, by simp⟩
    · obtain ⟨f1, f2, f3⟩ := first offset (by omega)
      rcases findchr_rec_segments_cons rb c hwf (fuel + 1) offset (by omega) with h | ⟨f, hf, h⟩
      · rw [h]
        refine ⟨?_, ?_, List.chain'_singleton _, ?_⟩
        · intro s hs
          rw [List.mem_singleton] at hs
          subst hs
          exact ⟨le_refl _, by omega, f1, f2, rfl, f3⟩
        · simp only [List.map_cons, List.map_nil, List.sum_cons, List.sum_nil]
          omega
        · intro s hs
          simp only [List.head?_cons, Option.some.injEq] at hs
          subst hs
          rfl
      · have hff : f = fuel := by omega
        subst hff
        rw [h]
        generalize LWIP_MIN (rb.size - wadd rb.tail offset % rb.size)
          (ringbuf_bytes_used rb - offset) = n at f1 f2 f3 ⊢
        obtain ⟨i1, i2, i3, i4⟩ := ih (offset + n)
        refine ⟨?_, ?_, ?_, ?_⟩
        · intro s hs
          rw [List.mem_cons] at hs
          rcases hs with hs | hs
          · subst hs
            exact ⟨le_refl _, by omega, f1, f2, rfl, f3⟩
          · obtain ⟨j1, j2⟩ := i1 s hs
            exact ⟨by omega, j2⟩
        · simp only [List.map_cons, List.sum_cons]
          omega
        · rw [List.chain'_cons']
          refine ⟨?_, i3⟩
          intro y hy
          exact i4 y hy
        · intro s hs
          simp only [List.head?_cons, Option.some.injEq] at hs
          subst hs
          rfl

/-- The search scans at most two segments. -/
theorem findchr_rec_segments_length (rb : ringbuf_t) (c : Int) (hwf : WF rb)
    (fuel offset : Nat) : ((ringbuf_findchr_rec_segments rb c fuel offset).2).length ≤ 2 := by
  have hlt := bytes_used_lt_size rb hwf
  have hsz : 0 < rb.size := by omega
  have last : ∀ (g o : Nat), o < ringbuf_bytes_used rb →
      ringbuf_bytes_used rb - o ≤ rb.size - wadd rb.tail o % rb.size →
      ((ringbuf_findchr_rec_segments rb c g o).2).length ≤ 1 := by
    intro g o ho hle
    rcases findchr_rec_segments_cons rb c hwf g o ho with h | ⟨f, _, h⟩
    · rw [h]
      simp
    · have hn : LWIP_MIN (rb.size - wadd rb.tail o % rb.size) (ringbuf_bytes_used rb - o)
          = ringbuf_bytes_used rb - o := by
        unfold LWIP_MIN
        split <;> omega
      rw [h, hn, findchr_rec_segments_nil rb c f _ (by omega)]
      simp
  by_cases ho : ringbuf_bytes_used rb ≤ offset
  · rw [findchr_rec_segments_nil rb c fuel offset ho]
    simp
  · rcases findchr_rec_segments_cons rb c hwf fuel offset (by omega) with h | ⟨f, _, h⟩
    · rw [h]
      simp
    · rw [h, List.length_cons]
      have hm : wadd rb.tail offset % rb.size < rb.size := Nat.mod_lt _ hsz
      have hn : LWIP_MIN (rb.size - wadd rb.tail offset % rb.size)
          (ringbuf_bytes_used rb - offset) = rb.size - wadd rb.tail offset % rb.size ∨
          LWIP_MIN (rb.size - wadd rb.tail offset % rb.size)
          (ringbuf_bytes_used rb - offset) = ringbuf_bytes_used rb - offset := by
        unfold LWIP_MIN
        split
        · exact Or.inl rfl
        · exact Or.inr rfl
      generalize LWIP_MIN (rb.size - wadd rb.tail offset % rb.size)
        (ringbuf_bytes_used rb - offset) = n at hn ⊢
      by_cases hend : ringbuf_bytes_used rb ≤ offset + n
      · rw [findchr_rec_segments_nil rb c f _ hend]
        simp
      · have hn2 : n = rb.size - wadd rb.tail offset % rb.size := by omega
        obtain ⟨_, s2, s3⟩ := findchr_start rb hwf offset (by omega)
        have hW : WORD = 4294967296 := rfl
        have h2 : rb.size < WORD := hwf.2.1
        have h4 : rb.tail < rb.size := hwf.2.2.2
        have hnowrap : rb.tail + offset < WORD := by
          by_contra hc
          have := (s3 (by omega)).2.2
          omega
        have hst := s2 hnowrap
        have hmod := mod_of_lt_two_mul (rb.tail + offset) rb.size (by omega)
        have hsum : rb.tail + (offset + n) = rb.size := by
          rw [hst] at hn2
          split at hmod <;> omega
        have hstart : wadd rb.tail (offset + n) % rb.size = 0 := by
          simp only [wadd]
          rw [hsum, Nat.mod_eq_of_lt h2, Nat.mod_self]
        have := last f (offset + n) (by omega) (by rw [hstart]; omega)
        omega

/-- C17. `ringbuf_findchr` terminates on every well-formed buffer, for every value and
offset, with a value and no failed assertion. The segments it scans, each recorded as
`(offset, start, n)`, are at most two; each has `n >= 1` bytes and the next one is
scanned at `offset + n`, so every recursive call strictly increases the offset; each
lies between the offset asked and `bytes_used` and inside the storage, and its bytes
are buffered bytes: those of the indices `j .. j + n - 1` for an index `j` with
`j + n <= bytes_used`, which is the segment's offset whenever the 32-bit sum of the
read cursor's offset and the segment's offset does not wrap; together the segments
have at most `bytes_used - offset` bytes. The result is the same on every well-formed
buffer with the same cursors, size and buffered bytes, whatever the rest of the
storage holds. -/
theorem C17_findchr_terminates (rb : ringbuf_t) (c : Int) (k : Nat) (hwf : WF rb) :
    (∃ r : Nat, ringbuf_findchr rb c k = .value r) ∧
    (ringbuf_findchr_rec_segments rb c (ringbuf_bytes_used rb) k).1 = ringbuf_findchr rb c k ∧
    (ringbuf_findchr_segments rb c k).length ≤ 2 ∧
    (∀ s ∈ ringbuf_findchr_segments rb c k,
      k ≤ s.1 ∧ s.1 < ringbuf_bytes_used rb ∧ 1 ≤ s.2.2 ∧
      s.1 + s.2.2 ≤ ringbuf_bytes_used rb ∧ s.2.1 = wadd rb.tail s.1 % rb.size ∧
      s.2.1 + s.2.2 ≤ rb.size ∧
      ∃ j, j + s.2.2 ≤ ringbuf_bytes_used rb ∧ s.2.1 = (rb.tail + j) % rb.size ∧
        memRead rb.buf s.2.1 s.2.2 = ((buffered rb).drop j).take s.2.2 ∧
        (rb.tail + s.1 < WORD → j = s.1)) ∧
    List.Chain' (fun a b : Nat × Nat × Nat => b.1 = a.1 + a.2.2)
      (ringbuf_findchr_segments rb c k) ∧
    ((ringbuf_findchr_segments rb c k).map (fun s => s.2.2)).sum ≤ ringbuf_bytes_used rb - k ∧
    (∀ other : ringbuf_t, WF other → other.size = rb.size → other.head = rb.head →
      other.tail = rb.tail → buffered other = buffered rb →
      ringbuf_findchr other c k = ringbuf_findchr rb c k) := by
  obtain ⟨p1, p2, p3, _⟩ := findchr_rec_segments_props rb c hwf (ringbuf_bytes_used rb) k
  refine ⟨findchr_value rb c k hwf, findchr_rec_segments_fst rb c _ k,
    findchr_rec_segments_length rb c hwf _ k, ?_, p3, p2, ?_⟩
  · intro s hs
    obtain ⟨q1, q2, q3, q4, q5, q6⟩ := p1 s hs
    refine ⟨q1, q2, q3, q4, q5, q6, ?_⟩
    obtain ⟨_, s2, s3⟩ := findchr_start rb hwf s.1 q2
    by_cases hw : rb.tail + s.1 < WORD
    · have hst := s2 hw
      rw [hst] at q5
      refine ⟨s.1, q4, q5, ?_, fun _ => rfl⟩
      rw [q5]
      exact findchr_segment rb hwf s.1 s.2.2 q2 (by omega) (by omega)
    · obtain ⟨s6, s4, s5⟩ := s3 (by omega)
      rw [s4] at q5
      refine ⟨s.1 - (WORD - rb.size), by omega, q5, ?_, fun h => absurd h hw⟩
      rw [q5]
      exact findchr_segment rb hwf (s.1 - (WORD - rb.size)) s.2.2 (by omega) (by omega)
        (by omega)
  · intro other hwfo e1 e2 e3 e4
    exact findchr_congr rb other c k hwf hwfo e1 e2 e3 e4

/-- Witness of C17: the search for an absent byte in the three bytes buffered across
the end of the storage scans the byte at offset 4 and then two bytes from offset 0. -/
theorem C17_findchr_terminates_witness :
    WF sampleWrapped ∧ ringbuf_findchr sampleWrapped 9 0 = .value 3 ∧
    ringbuf_findchr_segments sampleWrapped 9 0 = [(0, 4, 1), (1, 0, 2)] ∧
    (ringbuf_findchr_segments sampleWrapped 9 0).length ≤ 2 ∧
    ((ringbuf_findchr_segments sampleWrapped 9 0).map (fun s => s.2.2)).sum
      ≤ ringbuf_bytes_used sampleWrapped - 0 :=
  ⟨by decide, by decide, by decide,
    (C17_findchr_terminates sampleWrapped 9 0 (by decide)).2.2.1,
    (C17_findchr_terminates sampleWrapped 9 0 (by decide)).2.2.2.2.2.1⟩
/-! ## The assertions -/

/-- From a write cursor inside the storage the write loop never stops at its
assertion, whatever the source and the count. -/
theorem memcpy_into_loop_not_asserted (src : List Nat) (count : Nat) :
    ∀ (fuel : Nat) (dst : ringbuf_t) (nread : Nat) (d : ringbuf_t) (k : Nat),
      dst.head < dst.size →
      ringbuf_memcpy_into_loop src count dst.size fuel dst nread ≠ .asserted (d, k) := by
  intro fuel
  induction fuel with
  | zero =>
    intro dst nread d k hh
    rw [ringbuf_memcpy_into_loop]
    split <;> simp
  | succ fuel ih =>
    intro dst nread d k hh
    by_cases e : nread = count
    · subst e
      rw [memcpy_into_loop_done]
      simp
    · rw [memcpy_into_loop_step src count dst.size fuel dst nread e hh]
      have hn1 := LWIP_MIN_le_left (dst.size - dst.head) (count - nread)
      generalize LWIP_MIN (dst.size - dst.head) (count - nread) = n at hn1 ⊢
      have hh2 : (if dst.head + n = dst.size then 0 else dst.head + n) < dst.size := by
        split <;> omega
      generalize hd2 : ({ buf := os_memcpy dst.buf dst.head (memRead src nread n), head := if dst.head + n = dst.size then 0 else dst.head + n, tail := dst.tail, size := dst.size } : ringbuf_t) = d2
      have hsz : d2.size = dst.size := by rw [← hd2]
      have hh3 : d2.head < d2.size := by rw [← hd2]; exact hh2
      rw [← hsz]
      exact ih d2 _ d k hh3

/-- Moving the read cursor to one past a write cursor inside the storage makes the
buffer full, whatever the storage holds. -/
theorem is_full_after_nextp_cursors (buf : List Nat) (head size : Nat) (hh : head < size)
    (hs : size < WORD) :
    ringbuf_is_full { buf := buf, head := head, tail := (head + 1) % size, size := size }
      = true := by
  by_cases hc : head + 1 = size
  · rw [hc, Nat.mod_self]
    simp only [ringbuf_is_full, ringbuf_bytes_free, ringbuf_capacity, ringbuf_buffer_size,
      beq_iff_eq, wsub, WORD, ge_iff_le, Nat.zero_le, if_true] at hs ⊢
    omega
  · rw [Nat.mod_eq_of_lt (by omega)]
    simp only [ringbuf_is_full, ringbuf_bytes_free, ringbuf_capacity, ringbuf_buffer_size,
      beq_iff_eq, ge_iff_le, if_neg (show ¬ head + 1 ≤ head by omega)]
    omega

/-- On a well-formed buffer `ringbuf_memcpy_into` returns the new write cursor, with
no failed assertion, for every source and count; after it the cursors are inside the
storage, and the buffer is full when the count exceeds the free bytes. -/
theorem memcpy_into_value (rb : ringbuf_t) (src : List Nat) (count : Nat) (hwf : WF rb) :
    ∃ d : ringbuf_t,
      ringbuf_memcpy_into rb src count = (d, .value d.head) ∧
      d.head < d.size ∧ d.tail < d.size ∧ d.size = rb.size ∧
      (count > ringbuf_bytes_free rb → ringbuf_is_full d = true) := by
  obtain ⟨h1, h2, h3, h4⟩ := hwf
  have hnt := memcpy_into_loop_no_timeout src count rb.size count rb 0 (by omega) (Nat.zero_le _)
  have hna := memcpy_into_loop_not_asserted src count count rb 0
  have hcur := memcpy_into_loop_cursors src count count rb 0
  unfold ringbuf_memcpy_into
  simp only [ringbuf_end, ringbuf_buffer_size]
  split
  · next heq => exact absurd heq hnt
  · next d k heq => exact absurd heq (hna d k h3)
  · next d k heq =>
    obtain ⟨g1, g2, g3⟩ := hcur d k h3 (Or.inl heq)
    obtain ⟨dbuf, dhead, dtail, dsize⟩ := d
    simp only at g1 g2 g3
    subst g2 g3
    have hnext : ringbuf_nextp { buf := dbuf, head := dhead, tail := rb.tail, size := rb.size }
        dhead = some ((dhead + 1) % rb.size) := by
      simp [ringbuf_nextp, ringbuf_end, ringbuf_buffer_size, g1]
    have hm : (dhead + 1) % rb.size < rb.size := Nat.mod_lt _ (by omega)
    have hfull := is_full_after_nextp_cursors dbuf dhead rb.size g1 h2
    by_cases hov : count > ringbuf_bytes_free rb
    · simp only [hov, decide_True, if_true, hnext, hfull]
      exact ⟨_, rfl, g1, hm, rfl, fun _ => hfull⟩
    · simp only [hov, decide_False, Bool.false_eq_true, if_false]
      exact ⟨_, rfl, g1, h4, rfl, fun h => False.elim h⟩

/-- Every segment a loop cuts from a cursor inside the storage starts inside the
storage, whatever the count. -/
theorem copy_segments_start_lt (count size : Nat) :
    ∀ (fuel cur done : Nat), cur < size →
      ∀ s ∈ copy_segments count size fuel cur done, s.1 < size := by
  intro fuel
  induction fuel with
  | zero =>
    intro cur done _ s hs
    simp [copy_segments] at hs
  | succ fuel ih =>
    intro cur done hcur s hs
    by_cases e : done = count
    · rw [e, copy_segments_done] at hs
      simp at hs
    · rw [copy_segments_step count size fuel cur done e hcur, List.mem_cons] at hs
      have hn1 := LWIP_MIN_le_left (size - cur) (count - done)
      rcases hs with hs | hs
      · subst hs
        exact hcur
      · refine ih _ _ ?_ s hs
        split <;> omega
/-- C18. Assertion validity: from a well-formed buffer, every call of `ringbuf_memset`,
`ringbuf_memcpy_into`, `ringbuf_memcpy_from` and `ringbuf_findchr`, with every
argument, ends with a value, so no `lwIP_ASSERT` fails and no early return is taken.
In particular the cursor is strictly before the end of the storage at every loop
iteration and at every scanned segment, the write cursor passed to `ringbuf_nextp` is
inside the storage, the buffer is full after an overflowing write, and after a
successful `ringbuf_memcpy_from` the count plus `bytes_used` equals `bytes_used`
before the call. -/
theorem C18_assertions_hold (rb : ringbuf_t) (hwf : WF rb) :
    (∀ (c : Int) (len : Nat), ∃ (d : ringbuf_t) (n : Nat),
      ringbuf_memset rb c len = (d, .value n) ∧
      (∀ s ∈ ringbuf_memset_segments rb c len, s.1 < rb.size) ∧
      d.head < d.size ∧ (len > ringbuf_bytes_free rb → ringbuf_is_full d = true)) ∧
    (∀ (src : List Nat) (count : Nat), ∃ d : ringbuf_t,
      ringbuf_memcpy_into rb src count = (d, .value d.head) ∧
      (∀ s ∈ ringbuf_memcpy_into_segments rb src count, s.1 < rb.size) ∧
      d.head < d.size ∧ (count > ringbuf_bytes_free rb → ringbuf_is_full d = true)) ∧
    (∀ (dst : List Nat) (count : Nat), ∃ (out : List Nat) (s : ringbuf_t) (r : Option Nat),
      ringbuf_memcpy_from dst rb count = (out, s, .value r) ∧
      (∀ g ∈ ringbuf_memcpy_from_segments dst rb count, g.1 < rb.size) ∧
      (count ≤ ringbuf_bytes_used rb →
        r = some s.tail ∧ count + ringbuf_bytes_used s = ringbuf_bytes_used rb ∧
        wadd count (ringbuf_bytes_used s) = ringbuf_bytes_used rb)) ∧
    (∀ (c : Int) (k : Nat), ∃ r : Nat,
      ringbuf_findchr rb c k = .value r ∧
      (∀ s ∈ ringbuf_findchr_segments rb c k, s.2.1 < rb.size)) := by
  have hfree := bytes_used_add_free rb hwf
  have hlt := bytes_used_lt_size rb hwf
  have hh : rb.head < rb.size := hwf.2.2.1
  have ht : rb.tail < rb.size := hwf.2.2.2
  have hmax : rb.size < WORD := hwf.2.1
  refine ⟨?_, ?_, ?_, ?_⟩
  · intro c len
    obtain ⟨d, hset, hcpy⟩ := memset_eq_memcpy_into rb c len hwf
    obtain ⟨d2, hd2, g1, _, _, g4⟩ :=
      memcpy_into_value rb (List.replicate (LWIP_MIN len rb.size) (toByte c))
        (LWIP_MIN len rb.size) hwf
    rw [hcpy] at hd2
    have hdd : d2 = d := (Prod.mk.inj hd2).1.symm
    subst hdd
    refine ⟨d2, _, hset, ?_, g1, ?_⟩
    · unfold ringbuf_memset_segments
      rw [(memset_loop_segments_eq _ _ _ _ _ _).2]
      exact copy_segments_start_lt _ _ _ _ _ hh
    · intro hlen
      apply g4
      rw [LWIP_MIN_eq_min]
      omega
  · intro src count
    obtain ⟨d, hd, g1, _, _, g4⟩ := memcpy_into_value rb src count hwf
    refine ⟨d, hd, ?_, g1, g4⟩
    unfold ringbuf_memcpy_into_segments
    rw [(memcpy_into_loop_segments_eq _ _ _ _ _ _).2]
    exact copy_segments_start_lt _ _ _ _ _ hh
  · intro dst count
    have hseg : ∀ g ∈ ringbuf_memcpy_from_segments dst rb count, g.1 < rb.size := by
      unfold ringbuf_memcpy_from_segments
      split
      · intro g hg
        simp at hg
      · rw [(memcpy_from_loop_segments_eq _ _ _ _ _ _).2]
        exact copy_segments_start_lt _ _ _ _ _ ht
    by_cases hc : count ≤ ringbuf_bytes_used rb
    · obtain ⟨s, hs, _, _, _, _, _, hu, _⟩ := memcpy_from_spec dst rb count hwf hc
      refine ⟨_, s, _, hs, hseg, fun _ => ⟨rfl, by omega, ?_⟩⟩
      simp only [wadd, WORD] at hmax ⊢
      omega
    · refine ⟨dst, rb, none, ?_, hseg, fun h => absurd h hc⟩
      simp [ringbuf_memcpy_from, Nat.lt_of_not_le hc]
  · intro c k
    obtain ⟨r, hr⟩ := findchr_value rb c k hwf
    obtain ⟨p1, _, _, _⟩ := findchr_rec_segments_props rb c hwf (ringbuf_bytes_used rb) k
    refine ⟨r, hr, ?_⟩
    intro s hs
    obtain ⟨_, _, q3, _, _, q6⟩ := p1 s hs
    omega

/-- Witness of C18: a write of thirteen bytes, with a source of two, a refused read
and a search on a buffer of size 5. -/
theorem C18_assertions_hold_witness :
    WF samplePartial ∧
    (∃ d : ringbuf_t, ringbuf_memcpy_into samplePartial [1, 2] 13 = (d, .value d.head) ∧
      (∀ s ∈ ringbuf_memcpy_into_segments samplePartial [1, 2] 13, s.1 < samplePartial.size) ∧
      d.head < d.size ∧
      (13 > ringbuf_bytes_free samplePartial → ringbuf_is_full d = true)) ∧
    (∃ r : Nat, ringbuf_findchr samplePartial 66 0 = .value r ∧
      (∀ s ∈ ringbuf_findchr_segments samplePartial 66 0, s.2.1 < samplePartial.size)) :=
  ⟨by decide, (C18_assertions_hold samplePartial (by decide)).2.1 [1, 2] 13,
    (C18_assertions_hold samplePartial (by decide)).2.2.2 66 0⟩
end EspconnBuf
